import Mathlib

/-!
Verification of the HD-wallet core `src/wallet.c` (Digital-Bitbox-style MCU
firmware).  The C code is shallowly embedded: strings become `List Char`,
byte buffers become `List Nat` (each entry < 256), machine integers become
`Nat` (the quantities involved never reach `2^64` for the inputs considered,
so no wrap-around modelling is required), and fallible functions return
`Option`/sum types.  External collaborators (SHA-256, RIPEMD-160, secp256k1,
PBKDF2, the hardware RNG, the BIP32 child-key-derivation routines of the
repository's `bip32.c`, and the BIP39 word list of `bip39_english.h` — the
latter two are part of the repository but absent from the provided sources)
are passed in as parameters; the properties they are assumed to satisfy are
stated as explicit hypotheses of the theorems.
-/

/-! ## Small character and hex helpers -/

/-- Separator predicate used by `wallet_split_seed` (`strtok(msg, " ,")`). -/
def isSepSC (c : Char) : Bool := c == ' ' || c == ','

/-- Separator predicate for `/` used by `wallet_generate_key`. -/
def isSlash (c : Char) : Bool := c == '/'

/-- Lowercase-hex digit predicate (the transaction boundary format is
lowercase hex ASCII). -/
def isHexDigitLC (c : Char) : Bool :=
  (48 ≤ c.toNat && c.toNat ≤ 57) || (97 ≤ c.toNat && c.toNat ≤ 102)

/-- Value of a lowercase hex digit; any other character counts 0. -/
def hexVal (c : Char) : Nat :=
  if 48 ≤ c.toNat ∧ c.toNat ≤ 57 then c.toNat - 48
  else if 97 ≤ c.toNat ∧ c.toNat ≤ 102 then c.toNat - 87
  else 0

/-- Hex character for a value < 16 (lowercase, as produced by
`utils_uint8_to_hex`). -/
def hexDigitChar (n : Nat) : Char :=
  if n < 10 then Char.ofNat (48 + n) else Char.ofNat (87 + n)

/-- Two lowercase hex characters of a byte. -/
def byteToHex (b : Nat) : List Char := [hexDigitChar (b / 16), hexDigitChar (b % 16)]

/-- Hex rendering of a byte string (model of `utils_uint8_to_hex`,
which lives in the repository's `utils.c`; modelled from the spec:
"All byte buffers exposed in reports are hex-encoded"). -/
def bytesToHex (bs : List Nat) : List Char := (bs.map byteToHex).flatten

/-- Read the byte encoded by the first two characters of `s`
(missing characters read as 0). -/
def readHexByte (s : List Char) : Nat := 16 * hexVal (s.getD 0 '0') + hexVal (s.getD 1 '0')

/-- Read `k` bytes of little-endian hex starting at `s`. -/
def readHexLE : List Char → Nat → Nat
  | _, 0 => 0
  | s, k + 1 => readHexByte s + 256 * readHexLE (s.drop 2) k

/-- Little-endian byte rendering of `n` on `k` bytes. -/
def natLEBytes : Nat → Nat → List Nat
  | _, 0 => []
  | n, k + 1 => (n % 256) :: natLEBytes (n / 256) k

/-- Split a hex string into byte pairs (a trailing odd character makes a
1-character group). -/
def hexPairs : List Char → List (List Char)
  | [] => []
  | [a] => [[a]]
  | a :: b :: r => [a, b] :: hexPairs r

/-- Model of `utils_reverse_hex` from the repository's `utils.c`.
Modelled from the spec: "byte-reverse to big-endian hex" — the byte pairs
of the hex string are reversed. -/
def reverseHexPairs (s : List Char) : List Char := ((hexPairs s).reverse).flatten

/-- Hex-string to bytes (model of `utils_hex_to_uint8` from the repository's
`utils.c`; modelled from the spec's data-format section: two ASCII
characters per wire byte). -/
def hexToBytes (s : List Char) : List Nat := (hexPairs s).map readHexByte

/-- Model of C `strtoull(s, NULL, 16)` on lowercase hex input: parse the
leading run of hex digits; the result saturates at `ULLONG_MAX`. -/
def strtoullHex (s : List Char) : Nat :=
  min ((s.takeWhile isHexDigitLC).foldl (fun a c => a * 16 + hexVal c) 0) (2 ^ 64 - 1)

/-- Model of C `strtoull(s, NULL, 10)`: parse the leading run of decimal
digits; the result saturates at `ULLONG_MAX`. -/
def strtoullDec (s : List Char) : Nat :=
  min ((s.takeWhile Char.isDigit).foldl (fun a c => a * 10 + (c.toNat - 48)) 0) (2 ^ 64 - 1)

/-! ## CompactSize varints over hex characters

`utils_varint_to_uint64` lives in the repository's `utils.c`, which is not
among the provided sources.  Modelled from the spec: "CompactSize varint:
Bitcoin variable-length integer; 1, 3, 5, or 9 bytes depending on
magnitude", "read a CompactSize varint (hex-encoded)"; the multi-byte forms
carry the value little-endian after a `fd`/`fe`/`ff` marker byte.  The
value returned second is the number of hex characters consumed (the C
function's return value, added to the running character offset). -/

/-- Read a hex-encoded CompactSize varint: gives `(value, chars consumed)`. -/
def readVarint (s : List Char) : Nat × Nat :=
  let b := readHexByte s
  if b < 0xfd then (b, 2)
  else if b = 0xfd then (readHexLE (s.drop 2) 2, 6)
  else if b = 0xfe then (readHexLE (s.drop 2) 4, 10)
  else (readHexLE (s.drop 2) 8, 18)

/-- Canonical hex encoding of a CompactSize varint (serialization direction,
used to quantify over well-formed transactions). -/
def serVarint (n : Nat) : List Char :=
  if n < 0xfd then byteToHex n
  else if n < 0x10000 then byteToHex 0xfd ++ ((natLEBytes n 2).map byteToHex).flatten
  else if n < 0x100000000 then byteToHex 0xfe ++ ((natLEBytes n 4).map byteToHex).flatten
  else byteToHex 0xff ++ ((natLEBytes n 8).map byteToHex).flatten

/-! ## Tokenizers

`strtok(s, seps)` splits `s` at runs of separator characters, skipping
empty tokens.  The checksum walk of `wallet_mnemonic_check` instead splits
at every single `' '` (and only `' '`), producing an (empty) token between
two adjacent spaces.  Both are written with an explicit fuel argument
(always instantiated with the string length) so that they are structurally
recursive and evaluate inside the kernel. -/

/-- Fueled `strtok` tokenizer: maximal runs of non-separator characters. -/
def strtokAux (isSep : Char → Bool) : Nat → List Char → List (List Char)
  | 0, _ => []
  | _, [] => []
  | fuel + 1, c :: s =>
    if isSep c then strtokAux isSep fuel s
    else (c :: s.takeWhile (fun d => !isSep d)) :: strtokAux isSep fuel (s.dropWhile (fun d => !isSep d))

/-- The `strtok` token list of a string. -/
def strtokTokens (isSep : Char → Bool) (s : List Char) : List (List Char) :=
  strtokAux isSep s.length s

/-- Fueled model of the character walk of `wallet_mnemonic_check`: cut the
string at every single space; a trailing space yields no extra token
(the outer `while (mnemo[i])` stops at the terminator). -/
def spAux : Nat → List Char → List (List Char)
  | 0, _ => []
  | _, [] => []
  | fuel + 1, c :: s =>
    ((c :: s).takeWhile (fun d => !(d == ' ')))
      :: spAux fuel (((c :: s).dropWhile (fun d => !(d == ' '))).drop 1)

/-- The space-cut token list of a string. -/
def spTokens (s : List Char) : List (List Char) := spAux s.length s

/-! ## Bit-buffer helpers

`wallet_mnemonic_from_data` and `wallet_mnemonic_check` treat a byte array
as an MSB-first bit stream (`bits[pos/8] & (1 << (7 - pos%8))`, and
`bits[bi/8] |= 1 << (7 - bi%8)`).  We model the array as `List Nat` and the
stream as `List Bool`. -/

/-- Bit `pos` (MSB-first) of byte buffer `B`: the C expression
`(B[pos/8] & (1 << (7 - pos%8))) > 0`. -/
def testBitBE (B : List Nat) (pos : Nat) : Bool := (B.getD (pos / 8) 0).testBit (7 - pos % 8)

/-- The eight bits of a byte, MSB first. -/
def byteBits (b : Nat) : List Bool := (List.range 8).map (fun r => b.testBit (7 - r))

/-- The MSB-first bit stream of a byte buffer. -/
def bytesToBits (B : List Nat) : List Bool := (B.map byteBits).flatten

/-- Numeric value of an MSB-first bit string. -/
def bitsVal (bs : List Bool) : Nat := bs.foldl (fun a b => 2 * a + (if b then 1 else 0)) 0

/-- Pack at most 8 bits (MSB first) into a byte; missing low bits are 0,
exactly as the C `|=` loop leaves them. -/
def byteOfBits (bs : List Bool) : Nat := bitsVal bs <<< (8 - bs.length)

/-- Fueled packing of a bit stream into bytes. -/
def bytesOfBitsAux : Nat → List Bool → List Nat
  | 0, _ => []
  | _, [] => []
  | fuel + 1, b :: bs => byteOfBits ((b :: bs).take 8) :: bytesOfBitsAux fuel ((b :: bs).drop 8)

/-- Pack an MSB-first bit stream into bytes (partial last byte zero-padded
at the low end). -/
def bytesOfBits (bs : List Bool) : List Nat := bytesOfBitsAux bs.length bs

/-- The eleven bits of a word-list index, MSB first: the C loop
`if (k & (1 << (10 - ki)))`. -/
def natBits11 (k : Nat) : List Bool := (List.range 11).map (fun ki => k.testBit (10 - ki))

/-- Zero-pad a byte buffer on the right up to length `n` (a C array is
zero-initialised beyond what was written). -/
def padTo (n : Nat) (l : List Nat) : List Nat := l ++ List.replicate (n - l.length) 0

/-- Substring occurrence test, model of `strstr(hay, needle) != NULL`. -/
def isPrefixOfList : List Char → List Char → Bool
  | [], _ => true
  | _ :: _, [] => false
  | a :: as, b :: bs => a == b && isPrefixOfList as bs

/-- Whether `needle` occurs (contiguously) inside `hay`. -/
def containsSub (needle hay : List Char) : Bool :=
  match hay with
  | [] => isPrefixOfList needle []
  | _ :: t => isPrefixOfList needle hay || containsSub needle t

/-! ## Data model -/

/-- Caller-visible return codes of the core (`flags.h` names `DBB_OK`,
`DBB_ERROR`, `DBB_ERROR_MEM`, ...). -/
inductive Dbb
  | ok
  | error
  | errorMem
  | keyPresent
  | keyAbsent
deriving DecidableEq

/-- The BIP32 extended key (`HDNode`).  Byte-array fields are `List Nat`. -/
structure HDNode where
  depth : Nat
  fingerprint : Nat
  child_num : Nat
  chain_code : List Nat
  private_key : List Nat
  public_key : List Nat
deriving DecidableEq

/-! ## wallet_seeded and the static scratch state -/

/-- Model of `wallet_seeded`: compare the stored master key and chain code
against the first 32 bytes of the storage layer's erasure sentinel
(`MEM_PAGE_ERASE`, an external constant of the memory collaborator). -/
def wallet_seeded (memMaster memChain sentinel : List Nat) : Dbb :=
  if memMaster.take 32 = sentinel.take 32 ∨ memChain.take 32 = sentinel.take 32 then Dbb.error
  else Dbb.ok

/-- Size of the static `mnemonic` buffer of `wallet.c` and of the static
`msg` buffer of `wallet_split_seed`:
`(BIP39_MAX_WORD_LEN + 1) * MAX_SEED_WORDS + 1` with the constants from the
repository's `wallet.h` (absent from the provided sources).  Modelled from
the spec: a mnemonic has at most 24 words ("12, 18, or 24 words"), each of
at most 9 characters ("stack buffer of size 10"), so
`BIP39_MAX_WORD_LEN = 9` and `MAX_SEED_WORDS = 25` (one above the maximum
word count, as the `i + 1 >= MAX_SEED_WORDS` guard of `wallet_split_seed`
must not cut off a 24-word phrase). -/
def MNEMONIC_BUF_LEN : Nat := (9 + 1) * 25 + 1

/-- Modelled from the spec: salt bounded by `SALT_LEN_MAX` (constant of the
repository's `flags.h`, absent from the provided sources); its exact value
is irrelevant to the claims, we fix 32. -/
def SALT_LEN_MAX : Nat := 32

/-- The module-level scratch buffers of `wallet.c` (plus the two external
secure-memory pages, so that seeding is observable).  Buffer contents are
byte lists of the fixed buffer lengths. -/
structure WalletStatics where
  mnemonicBuf : List Nat
  seedBuf : List Nat
  randBuf : List Nat
  splitMsg : List Nat
  saltBuf : List Nat
  memMaster : List Nat
  memChain : List Nat
deriving DecidableEq

/-- Model of `clear_static_variables`: zeroes `seed`, `mnemonic` and
`rand_data_32` — and nothing else. -/
def clear_static_variables (s : WalletStatics) : WalletStatics :=
  { s with
    seedBuf := List.replicate 64 0
    mnemonicBuf := List.replicate MNEMONIC_BUF_LEN 0
    randBuf := List.replicate 32 0 }

/-! ## wallet_split_seed -/

/-- Number of tokens reported by `wallet_split_seed`: the message is first
copied (`snprintf`, hence truncated to the buffer size minus one) into the
static `msg` buffer, then tokenized by `strtok(msg, " ,")`; the return
value is the token count, capped at `MAX_SEED_WORDS - 1 = 24` by the
`i + 1 >= MAX_SEED_WORDS` break. -/
def wallet_split_seed_count (message : List Char) : Nat :=
  min (strtokTokens isSepSC (message.take (MNEMONIC_BUF_LEN - 1))).length 24

/-- Content of the static `msg` buffer of `wallet_split_seed` after the
call: the (truncated) message with separator characters zeroed by `strtok`
and the zero-initialised tail.  (`strtok` null-terminates each token in
place; we conservatively zero every separator byte — the non-separator
bytes, which are the secret material, are exactly those of the message.) -/
def splitMsgBytes (message : List Char) : List Nat :=
  padTo MNEMONIC_BUF_LEN
    ((message.take (MNEMONIC_BUF_LEN - 1)).map (fun c => if isSepSC c then 0 else c.toNat))

/-! ## BIP39 mnemonic codec

The SHA-256 primitive is an external collaborator (spec §1: "the underlying
primitives … are assumed correct") and appears as a parameter
`sha : List Nat → List Nat`.  The 2048-entry English word list lives in the
repository's `bip39_english.h`, absent from the provided sources; modelled
from the spec ("fixed 2048-word BIP39 English wordlist", every word of
length ≤ 8) as a parameter `wl : List (List Char)` whose properties are
hypotheses of the theorems. -/

/-- Join words with a single separator character between them and no
trailing separator. -/
def joinSep (sep : Char) : List (List Char) → List Char
  | [] => []
  | [w] => w
  | w :: ws => w ++ sep :: joinSep sep ws

/-- Join words with single spaces, no trailing separator: the C loop
`*p = (i < mlen - 1) ? ' ' : 0`. -/
def joinWords (ws : List (List Char)) : List Char := joinSep ' ' ws

/-- The bit buffer of `wallet_mnemonic_from_data`: `sha256_Raw(data, len,
bits); bits[len] = bits[0]; memcpy(bits, data, len);` leaves the first
`len + 1` bytes equal to `data ++ [sha(data)[0]]` (later bytes are never
read: only `len*8 + len/4` bits are consumed). -/
def fromDataBits (sha : List Nat → List Nat) (data : List Nat) : List Nat :=
  data ++ [(sha data).headD 0]

/-- The 11-bit word index of word `i`: the C double loop
`idx <<= 1; idx += (bits[(i*11+j)/8] & (1 << (7 - (i*11+j)%8))) > 0`. -/
def mnemoIdx (B : List Nat) (i : Nat) : Nat :=
  (List.range 11).foldl (fun a j => 2 * a + (if testBitBE B (i * 11 + j) then 1 else 0)) 0

/-- Model of `wallet_mnemonic_from_data`: reject lengths not a multiple of
4 or outside [16, 32]; otherwise emit `len*3/4` words joined by single
spaces. -/
def wallet_mnemonic_from_data (sha : List Nat → List Nat) (wl : List (List Char))
    (data : List Nat) : Option (List Char) :=
  if data.length % 4 ≠ 0 ∨ data.length < 16 ∨ 32 < data.length then none
  else
    let B := fromDataBits sha data
    let mlen := data.length * 3 / 4
    some (joinWords ((List.range mlen).map (fun i => wl.getD (mnemoIdx B i) [])))

/-- One token of the checksum walk of `wallet_mnemonic_check`: the
`j >= sizeof(current_word)` guard fires while copying the 11th character
(so only for tokens of length ≥ 11); then the word is searched linearly in
the word list (`for (;;) { if (!wordlist[k]) return ERROR; ... }`), and a
hit at index `k` appends the 11 bits of `k` to the bit buffer. -/
def lookupBits (wl : List (List Char)) (tok : List Char) : Option (List Bool) :=
  if 11 ≤ tok.length then none
  else
    match wl.findIdx? (fun w => w == tok) with
    | none => none
    | some k => some (natBits11 k)

/-- The complete checksum walk over the space-cut tokens; returns the
accumulated bit buffer, `none` on tokenizer overflow or unknown word. -/
def checkWalk (wl : List (List Char)) : List (List Char) → Option (List Bool)
  | [] => some []
  | t :: ts =>
    match lookupBits wl t with
    | none => none
    | some bs =>
      match checkWalk wl ts with
      | none => none
      | some rest => some (bs ++ rest)

/-- Model of `wallet_mnemonic_check`.  Word count via `wallet_split_seed`
(separators space *and* comma, capped at 24) must be 12, 18 or 24; then
the character walk (separator: single spaces only) re-derives the bit
buffer; `bi` must equal `n*11`; finally the first `n/3` checksum bits of
`SHA256` over the first `n*4/3` reconstructed bytes are compared with the
stored checksum bits (`bits[32] = bits[n*4/3]` before the in-place hash). -/
def wallet_mnemonic_check (sha : List Nat → List Nat) (wl : List (List Char))
    (mnemo : List Char) : Bool :=
  let n := wallet_split_seed_count mnemo
  if ¬(n = 12 ∨ n = 18 ∨ n = 24) then false
  else
    match checkWalk wl (spTokens mnemo) with
    | none => false
    | some bits =>
      if bits.length ≠ n * 11 then false
      else
        let buffer := padTo 33 (bytesOfBits bits)
        let chk := buffer.getD (n * 4 / 3) 0
        let h0 := (sha (buffer.take (n * 4 / 3))).headD 0
        if n = 12 then (h0 &&& 0xF0) == (chk &&& 0xF0)
        else if n = 18 then (h0 &&& 0xFC) == (chk &&& 0xFC)
        else h0 == chk

/-! ## wallet_mnemonic_to_seed (stateful: static salt buffer) -/

/-- Content of the static `salt` buffer after `wallet_mnemonic_to_seed`:
zeroed, then `"mnemonic"` in the first 8 bytes, then the passphrase
(`snprintf`-truncated to `SALT_LEN_MAX - 1` characters). -/
def saltBytes (passphrase : Option (List Char)) : List Nat :=
  padTo (8 + SALT_LEN_MAX + 4)
    (([109, 110, 101, 109, 111, 110, 105, 99] : List Nat) ++
      (match passphrase with
       | none => []
       | some p => (p.take (SALT_LEN_MAX - 1)).map Char.toNat))

/-- Stateful model of `wallet_mnemonic_to_seed`: writes the static salt
buffer and the 64-byte output buffer (in `wallet_master_from_mnemonic` the
output buffer is the static `seed`).  `pbkdf2` is the external
PBKDF2-HMAC-SHA512 collaborator applied to the mnemonic bytes and the
first `8 + strlen(passphrase)` salt bytes. -/
def wallet_mnemonic_to_seed (pbkdf2 : List Nat → List Nat → List Nat)
    (mnemo : List Char) (passphrase : Option (List Char)) (s : WalletStatics) : WalletStatics :=
  let salt := saltBytes passphrase
  let saltlen := 8 + (match passphrase with | none => 0 | some p => p.length)
  { s with
    saltBuf := salt
    seedBuf := pbkdf2 (mnemo.map Char.toNat) (salt.take saltlen) }

/-! ## wallet_generate_key -/

/-- The hardened markers of `wallet_generate_key` (`static char prime[] =
"phH\'"`); 39 is the apostrophe. -/
def isPrimeChar (c : Char) : Bool := c == 'p' || c == 'h' || c == 'H' || c.toNat == 39

/-- The per-token character scan of `wallet_generate_key`: a hardened
marker anywhere but the last position is an error, any character that is
neither marker nor decimal digit is an error; returns the hardened flag. -/
def scanLevel : List Char → Option Bool
  | [] => some false
  | c :: rest =>
    if isPrimeChar c then (if rest.isEmpty then some true else none)
    else if c.isDigit then scanLevel rest
    else none

/-- The derivation loop of `wallet_generate_key` over the `strtok`-split
path levels.  `ckd` and `ckdPrime` are `hdnode_private_ckd` and
`hdnode_private_ckd_prime` of the repository's `bip32.c` (absent from the
provided sources; the claims hold for every implementation, so they are
parameters). -/
def processLevels (ckd ckdPrime : HDNode → Nat → Option HDNode) :
    List (List Char) → HDNode → Option HDNode
  | [], node => some node
  | tok :: toks, node =>
    match scanLevel tok with
    | none => none
    | some prm =>
      let idx := strtoullDec tok
      if 4294967295 < idx then none
      else
        match (if prm then ckdPrime else ckd) node idx with
        | none => none
        | some node2 => processLevels ckd ckdPrime toks node2

/-- Model of `wallet_generate_key`: the path must be at least 2 characters
and start with `m/`; the remainder is `strtok`-split at `/` (so empty
levels are silently skipped) and folded through CKD from the master node.
`getPub` is `hdnode_fill_public_key` / `ecc_get_public_key33` (external
secp256k1 collaborator).  The `malloc` failure branch (`DBB_ERROR_MEM`) is
not modelled; `none` is the `DBB_ERROR` outcome. -/
def wallet_generate_key (ckd ckdPrime : HDNode → Nat → Option HDNode)
    (getPub : List Nat → List Nat) (keypath : List Char)
    (privkeymaster chaincode : List Nat) : Option HDNode :=
  if keypath.length < 2 then none
  else if ¬(keypath.getD 0 'x' = 'm' ∧ keypath.getD 1 'x' = '/') then none
  else
    let node0 : HDNode :=
      { depth := 0, fingerprint := 0, child_num := 0
        chain_code := chaincode.take 32
        private_key := privkeymaster.take 32
        public_key := getPub (privkeymaster.take 32) }
    processLevels ckd ckdPrime (strtokTokens isSlash (keypath.drop 2)) node0

/-! ## wallet_sign -/

/-- Outcome of `wallet_sign`: the four `commander_fill_report` error codes,
or the signature/public-key pair handed to
`commander_fill_signature_array`. -/
inductive SignResult
  | errHashLen
  | errKeyMaster
  | errKeyChild
  | errEcclib
  | success (sig : List Nat) (pub : List Nat)
deriving DecidableEq

/-- Model of `wallet_sign`.  `signDouble`/`signDigest` are
`ecc_sign_double`/`ecc_sign_digest` (external secp256k1 collaborator,
`none` = nonzero return), `getPub` is `ecc_get_public_key33`.  The checks
run in source order: hash length, `wallet_seeded`, `wallet_generate_key`,
ECC. -/
def wallet_sign (ckd ckdPrime : HDNode → Nat → Option HDNode)
    (getPub : List Nat → List Nat)
    (signDouble signDigest : List Nat → List Nat → Option (List Nat))
    (memMaster memChain sentinel : List Nat)
    (message keypath : List Char) (toHash : Bool) : SignResult :=
  if ¬toHash ∧ message.length ≠ 64 then SignResult.errHashLen
  else if wallet_seeded memMaster memChain sentinel ≠ Dbb.ok then SignResult.errKeyMaster
  else
    match wallet_generate_key ckd ckdPrime getPub keypath memMaster memChain with
    | none => SignResult.errKeyChild
    | some node =>
      let r := if toHash then signDouble node.private_key (hexToBytes message)
               else signDigest node.private_key ((hexToBytes message).take 32)
      match r with
      | none => SignResult.errEcclib
      | some sig => SignResult.success sig (getPub node.private_key)

/-! ## wallet_get_outputs

The structural walk over the legacy transaction hex.  The embedding
consumes the string by `drop` instead of tracking the character index
`idx`; the C bounds check `strlens(tx) < idx + 16` is exactly
`remaining.length < 16` on the consumed representation (when `idx`
overshoots the end, the remaining list is empty and the check also
fires).  The skip loops return the number of characters consumed, which —
as in the C, where `idx` simply grows — may exceed the remaining length
when a script-length varint announces more characters than exist. -/

/-- The input-skipping loop: for each input skip 64+8 chars, bounds-check,
read the scriptSig-length varint, skip `len*2 + 8` chars.  Returns the
total characters consumed. -/
def skipInputs : List Char → Nat → Option Nat
  | _, 0 => some 0
  | r, j + 1 =>
    let r1 := r.drop 72
    if r1.length < 16 then none
    else
      let v := readVarint r1
      let step := 72 + v.2 + v.1 * 2 + 8
      match skipInputs (r.drop step) j with
      | none => none
      | some rest => some (step + rest)

/-- The output-skipping loop: for each output skip the 16 value chars,
bounds-check, read the script-length varint, skip `len*2` chars. -/
def skipOutputs : List Char → Nat → Option Nat
  | _, 0 => some 0
  | r, j + 1 =>
    let r1 := r.drop 16
    if r1.length < 16 then none
    else
      let v := readVarint r1
      let step := 16 + v.2 + v.1 * 2
      match skipOutputs (r.drop step) j with
      | none => none
      | some rest => some (step + rest)

/-- Model of `wallet_get_outputs`.  Returns the substring from the start
of the output count to the computed end of the outputs, truncated both at
the actual end of the string (`snprintf` stops at the terminator — this is
what lets a truncated final script yield a *successful* partial result)
and at `outputs_len - 1`. -/
def wallet_get_outputs (tx : List Char) (outputsLen : Nat) : Option (List Char) :=
  let r1 := tx.drop 8
  if r1.length < 16 then none
  else
    let vIn := readVarint r1
    match skipInputs (r1.drop vIn.2) vIn.1 with
    | none => none
    | some consumedIn =>
      let rOut := (r1.drop vIn.2).drop consumedIn
      if rOut.length < 16 then none
      else
        let vOut := readVarint rOut
        match skipOutputs (rOut.drop vOut.2) vOut.1 with
        | none => none
        | some consumedOut => some (rOut.take (min (vOut.2 + consumedOut) (outputsLen - 1)))

/-! ## wallet_deserialize_output -/

/-- Model of `wallet_get_pubkeyhash`: SHA-256 over 65/1/33 bytes depending
on the leading byte, then RIPEMD-160 (both external primitives). -/
def wallet_get_pubkeyhash (sha rip : List Nat → List Nat) (pub : List Nat) : List Nat :=
  let h := if pub.getD 0 0 = 0x04 then sha (pub.take 65)
           else if pub.getD 0 0 = 0x00 then sha (pub.take 1)
           else sha (pub.take 33)
  rip h

/-- The per-output loop of `wallet_deserialize_output`.  For each output:
copy 16 value chars (`strncpy`), byte-reverse and hex-parse them, advance;
bounds-check; read the script-length varint; capture the script into the
256-byte `outaddr` (`snprintf` caps it at 255 characters and at the
string end); if a keypath was given, test `strstr(outaddr, changeHash)`
and count a hit as a change output (skipping the report), otherwise emit
`(value, script)`.  `changeHash = none` models the per-iteration
`wallet_generate_key` failure (`return DBB_ERROR`).  Returns the change
counter and the emitted pairs. -/
def deserLoop (usePath : Bool) (changeHash : Option (List Char)) :
    List Char → Nat → Nat → Option (Nat × List (Nat × List Char))
  | _, 0, found => some (found, [])
  | rem, j + 1, found =>
    let outValue := strtoullHex (reverseHexPairs (rem.take 16))
    let rem1 := rem.drop 16
    if rem1.length < 16 then none
    else
      let v := readVarint rem1
      let rem2 := rem1.drop v.2
      let outaddr := rem2.take (min (v.1 * 2) 255)
      let rem3 := rem2.drop (v.1 * 2)
      if usePath then
        match changeHash with
        | none => none
        | some hash =>
          if containsSub hash outaddr then deserLoop usePath changeHash rem3 j (found + 1)
          else
            match deserLoop usePath changeHash rem3 j found with
            | none => none
            | some r => some (r.1, (outValue, outaddr) :: r.2)
      else
        match deserLoop usePath changeHash rem3 j found with
        | none => none
        | some r => some (r.1, (outValue, outaddr) :: r.2)

/-- Model of `wallet_deserialize_output`.  Requires `wallet_seeded`; reads
the output-count varint (after the initial 16-char bounds check); runs the
loop; succeeds iff a change output was seen or `n_cnt == 1`.  The change
hash is the lowercase hex of `HASH160` of the public key of the node
derived at `keypath` (the derivation happens inside the loop in the C but
its inputs are loop-invariant). -/
def wallet_deserialize_output (ckd ckdPrime : HDNode → Nat → Option HDNode)
    (getPub sha rip : List Nat → List Nat)
    (memMaster memChain sentinel : List Nat)
    (outputs keypath : List Char) : Dbb :=
  if wallet_seeded memMaster memChain sentinel ≠ Dbb.ok then Dbb.error
  else if outputs.length < 16 then Dbb.error
  else
    let v := readVarint outputs
    let changeHash :=
      match wallet_generate_key ckd ckdPrime getPub keypath memMaster memChain with
      | none => none
      | some node =>
        some (bytesToHex ((wallet_get_pubkeyhash sha rip (getPub node.private_key)).take 20))
    match deserLoop (keypath.length ≠ 0) changeHash (outputs.drop v.2) v.1 0 with
    | none => Dbb.error
    | some r => if r.1 ≠ 0 ∨ v.1 = 1 then Dbb.ok else Dbb.error

/-! ## wallet_master_from_mnemonic -/

/-- The shared tail of `wallet_master_from_mnemonic` after the static
`seed` buffer has been filled: `hdnode_from_seed` (a function of the
repository's `bip32.c`, absent from the provided sources; modelled from
the spec §4.2 as an abstract `fromSeed` parameter that may fail), then
`memory_master(node.private_key)`, `memory_chaincode(node.chain_code)`,
and re-reading `wallet_seeded` (a failure there becomes
`DBB_ERROR_MEM`).  Every exit runs `clear_static_variables`. -/
def wallet_master_tail (fromSeed : List Nat → Option HDNode) (sentinel : List Nat)
    (s : WalletStatics) : Dbb × WalletStatics :=
  match fromSeed s.seedBuf with
  | none => (Dbb.error, clear_static_variables s)
  | some node =>
    let s2 := { s with memMaster := node.private_key, memChain := node.chain_code }
    let ret := if wallet_seeded s2.memMaster s2.memChain sentinel = Dbb.ok then Dbb.ok
               else Dbb.errorMem
    (ret, clear_static_variables s2)

/-- Model of `wallet_master_from_mnemonic`.  A `none` mnemonic draws a
fresh 64-byte seed from the RNG collaborator (`rng = none` models a
`random_bytes` failure → `DBB_ERROR_MEM` with nothing written); otherwise
the mnemonic is copied (`snprintf`-truncated) into the static buffer,
checked, and stretched by `wallet_mnemonic_to_seed` (a zero-length salt is
passed as NULL).  All statics named in `clear_static_variables` are
cleared on every exit — the `splitMsg`/`saltBuf` statics are not. -/
def wallet_master_from_mnemonic (sha : List Nat → List Nat) (wl : List (List Char))
    (rng : Option (List Nat)) (fromSeed : List Nat → Option HDNode)
    (pbkdf2 : List Nat → List Nat → List Nat) (sentinel : List Nat)
    (mnemo : Option (List Char)) (salt : List Char) (s0 : WalletStatics) :
    Dbb × WalletStatics :=
  let s := clear_static_variables s0
  match mnemo with
  | none =>
    match rng with
    | none => (Dbb.errorMem, clear_static_variables s)
    | some r => wallet_master_tail fromSeed sentinel { s with seedBuf := padTo 64 (r.take 64) }
  | some m =>
    if MNEMONIC_BUF_LEN < m.length then (Dbb.error, clear_static_variables s)
    else
      let m' := m.take (MNEMONIC_BUF_LEN - 1)
      let s1 := { s with mnemonicBuf := padTo MNEMONIC_BUF_LEN (m'.map Char.toNat) }
      let s2 := { s1 with splitMsg := splitMsgBytes m' }
      if wallet_mnemonic_check sha wl m' = false then (Dbb.error, clear_static_variables s2)
      else
        let s3 := wallet_mnemonic_to_seed pbkdf2 m'
                    (if salt.length = 0 then none else some salt) s2
        wallet_master_tail fromSeed sentinel s3

/-! ## Transaction serialization (the well-formedness side of the claims) -/

/-- Serialization of one parsed output: 16 hex characters of little-endian
value, the script-length varint (in bytes), the script hex. -/
def serOutput (o : List Char × List Char) : List Char :=
  o.1 ++ serVarint (o.2.length / 2) ++ o.2

/-- Serialization of an outputs section: the output-count varint followed
by the outputs — exactly the region `wallet_get_outputs` extracts. -/
def serOutputs (outs : List (List Char × List Char)) : List Char :=
  serVarint outs.length ++ (outs.map serOutput).flatten

/-! ## Concrete instantiations of the external collaborators

Used by the closed witness/counterexample theorems; the quantified
theorems hold for every collaborator satisfying their hypotheses. -/

/-- A letter for each residue < 26 (clamping at `z`). -/
def charOf : Nat → Char
  | 0 => 'a' | 1 => 'b' | 2 => 'c' | 3 => 'd' | 4 => 'e' | 5 => 'f' | 6 => 'g'
  | 7 => 'h' | 8 => 'i' | 9 => 'j' | 10 => 'k' | 11 => 'l' | 12 => 'm' | 13 => 'n'
  | 14 => 'o' | 15 => 'p' | 16 => 'q' | 17 => 'r' | 18 => 's' | 19 => 't' | 20 => 'u'
  | 21 => 'v' | 22 => 'w' | 23 => 'x' | 24 => 'y' | _ => 'z'

/-- Three-letter word for an index < 2048 (base-26 digits). -/
def word3 (k : Nat) : List Char := [charOf (k / 676), charOf (k / 26 % 26), charOf (k % 26)]

/-- A concrete 2048-entry word list satisfying every hypothesis the
theorems place on the external BIP39 word list. -/
def wlC : List (List Char) := (List.range 2048).map word3

/-- Concrete stand-in for the SHA-256 collaborator. -/
def shaC : List Nat → List Nat := fun _ => List.replicate 32 0

/-- Concrete stand-in for the RIPEMD-160 collaborator (constant `0xaa`
bytes, so the change HASH160 hex is forty `a` characters). -/
def ripC : List Nat → List Nat := fun _ => List.replicate 20 170

/-- Concrete stand-in for `ecc_get_public_key33`. -/
def pubC : List Nat → List Nat := fun _ => List.replicate 33 2

/-- Concrete stand-in for the CKD collaborators (keeps the node). -/
def ckdC : HDNode → Nat → Option HDNode := fun node _ => some node

/-- Concrete stand-in for `hdnode_from_seed`. -/
def fromSeedC : List Nat → Option HDNode :=
  fun _ => some ⟨0, 0, 0, List.replicate 32 3, List.replicate 32 2, List.replicate 33 2⟩

/-- Concrete stand-in for the PBKDF2 collaborator. -/
def pbkdf2C : List Nat → List Nat → List Nat := fun _ _ => List.replicate 64 5

/-- Concrete erasure sentinel (`MEM_PAGE_ERASE`). -/
def sentinelC : List Nat := List.replicate 32 255

/-- A concrete non-erased master page. -/
def masterC : List Nat := List.replicate 32 1

/-- All-zero static state. -/
def zeroStatics : WalletStatics :=
  { mnemonicBuf := List.replicate MNEMONIC_BUF_LEN 0
    seedBuf := List.replicate 64 0
    randBuf := List.replicate 32 0
    splitMsg := List.replicate MNEMONIC_BUF_LEN 0
    saltBuf := List.replicate (8 + SALT_LEN_MAX + 4) 0
    memMaster := List.replicate 32 1
    memChain := List.replicate 32 1 }

/-- The master node that `wallet_generate_key` with the concrete
collaborators produces for path `m/` from `masterC`/`masterC`. -/
def nodeC : HDNode :=
  { depth := 0, fingerprint := 0, child_num := 0
    chain_code := List.replicate 32 1
    private_key := List.replicate 32 1
    public_key := List.replicate 33 2 }

/-- A twelve-word mnemonic over `wlC` (all words `aaa`, index 0). -/
def mnemonic12 : List Char := joinSep ' ' (List.replicate 12 ['a', 'a', 'a'])

/-- The same phrase rendered with comma separators. -/
def mnemonic12c : List Char := joinSep ',' (List.replicate 12 ['a', 'a', 'a'])

/-- A legacy transaction hex truncated inside the final output script:
version `01000000`, no inputs, one output whose value is eight zero bytes
and whose script-length varint announces 25 bytes (`19`) although only 7
bytes of script hex follow. -/
def tx44 : List Char :=
  ['0', '1'] ++ List.replicate 6 '0' ++ ['0', '0'] ++ ['0', '1'] ++
    List.replicate 16 '0' ++ ['1', '9'] ++ List.replicate 14 '0'

/-- Sixteen zero value characters. -/
def value16 : List Char := List.replicate 16 '0'

/-- The hex of the concrete derived change HASH160 (forty `a`s). -/
def hash40 : List Char := List.replicate 40 'a'

/-- A 148-byte script whose only occurrence of `hash40` starts after the
255-character capture window of `outaddr[256]`. -/
def script296 : List Char := List.replicate 256 'b' ++ List.replicate 40 'a'

/-- Two-output transaction outputs section: the change hash occurs in the
first script, but only beyond character 255. -/
def outsBig : List (List Char × List Char) :=
  [(value16, script296), (value16, List.replicate 14 '0')]

/-- A single well-formed output whose 1-byte script leaves fewer than 16
characters after the value field. -/
def outsTiny : List (List Char × List Char) := [(value16, ['0', '0'])]

/-- A single output carrying the change hash (for the witness). -/
def outsW : List (List Char × List Char) := [(value16, hash40)]

/-! # Proofs

First the tokenizer infrastructure: the fuel arguments are irrelevant as
long as they dominate the string length, giving clean one-step recursion
equations for `strtokTokens` and `spTokens`. -/

theorem lengthDropWhileLe (p : Char → Bool) (l : List Char) :
    (l.dropWhile p).length ≤ l.length :=
  (List.dropWhile_sublist (l := l) p).length_le

theorem strtokAux_fuel (isSep : Char → Bool) :
    ∀ (f : Nat) (s : List Char) (g : Nat), s.length ≤ f → s.length ≤ g →
      strtokAux isSep f s = strtokAux isSep g s := by
  intro f
  induction f with
  | zero =>
    intro s g hf _
    have hs : s = [] := List.eq_nil_of_length_eq_zero (Nat.le_zero.mp hf)
    subst hs
    cases g <;> rfl
  | succ f ih =>
    intro s g hf hg
    cases s with
    | nil => cases g <;> rfl
    | cons c s' =>
      cases g with
      | zero => simp at hg
      | succ g' =>
        have hf' : s'.length ≤ f := by simpa using hf
        have hg' : s'.length ≤ g' := by simpa using hg
        simp only [strtokAux]
        by_cases hc : isSep c
        · rw [if_pos hc, if_pos hc]
          exact ih s' g' hf' hg'
        · have hd : (s'.dropWhile (fun d => !isSep d)).length ≤ s'.length :=
            lengthDropWhileLe _ _
          rw [if_neg hc, if_neg hc, ih _ g' (le_trans hd hf') (le_trans hd hg')]

theorem spAux_fuel :
    ∀ (f : Nat) (s : List Char) (g : Nat), s.length ≤ f → s.length ≤ g →
      spAux f s = spAux g s := by
  intro f
  induction f with
  | zero =>
    intro s g hf _
    have hs : s = [] := List.eq_nil_of_length_eq_zero (Nat.le_zero.mp hf)
    subst hs
    cases g <;> rfl
  | succ f ih =>
    intro s g hf hg
    cases s with
    | nil => cases g <;> rfl
    | cons c s' =>
      cases g with
      | zero => simp at hg
      | succ g' =>
        have hf' : s'.length ≤ f := by simpa using hf
        have hg' : s'.length ≤ g' := by simpa using hg
        simp only [spAux]
        have hd : ((((c :: s').dropWhile (fun d => !(d == ' ')))).drop 1).length ≤ s'.length := by
          have h1 : ((c :: s').dropWhile (fun d => !(d == ' '))).length ≤ s'.length + 1 :=
            lengthDropWhileLe _ _
          have h2 := List.length_drop 1 ((c :: s').dropWhile (fun d => !(d == ' ')))
          omega
        rw [ih _ g' (le_trans hd hf') (le_trans hd hg')]

theorem strtokTokens_cons (isSep : Char → Bool) (c : Char) (s : List Char) :
    strtokTokens isSep (c :: s) =
      if isSep c then strtokTokens isSep s
      else (c :: s.takeWhile (fun d => !isSep d)) ::
        strtokTokens isSep (s.dropWhile (fun d => !isSep d)) := by
  simp only [strtokTokens, List.length_cons, strtokAux]
  by_cases hc : isSep c
  · rw [if_pos hc, if_pos hc]
  · rw [if_neg hc, if_neg hc,
      strtokAux_fuel isSep s.length _ _ (lengthDropWhileLe _ _) le_rfl]

theorem spTokens_cons (c : Char) (s : List Char) :
    spTokens (c :: s) = ((c :: s).takeWhile (fun d => !(d == ' '))) ::
      spTokens ((((c :: s).dropWhile (fun d => !(d == ' ')))).drop 1) := by
  simp only [spTokens, List.length_cons, spAux]
  rw [spAux_fuel s.length _ _ ?_ le_rfl]
  have h1 : ((c :: s).dropWhile (fun d => !(d == ' '))).length ≤ s.length + 1 :=
    lengthDropWhileLe _ _
  have h2 := List.length_drop 1 ((c :: s).dropWhile (fun d => !(d == ' ')))
  omega

theorem takeWhile_append_stop (p : Char → Bool) (xs : List Char) (y : Char) (ys : List Char)
    (hxs : ∀ x ∈ xs, p x = true) (hy : p y = false) :
    (xs ++ y :: ys).takeWhile p = xs := by
  induction xs with
  | nil => simp [List.takeWhile_cons, hy]
  | cons a as ih =>
    have ha : p a = true := hxs a (by simp)
    simp only [List.cons_append, List.takeWhile_cons, ha, if_true]
    exact congrArg _ (ih (fun x hx => hxs x (by simp [hx])))

theorem dropWhile_append_stop (p : Char → Bool) (xs : List Char) (y : Char) (ys : List Char)
    (hxs : ∀ x ∈ xs, p x = true) (hy : p y = false) :
    (xs ++ y :: ys).dropWhile p = y :: ys := by
  induction xs with
  | nil => simp [List.dropWhile_cons, hy]
  | cons a as ih =>
    have ha : p a = true := hxs a (by simp)
    simp only [List.cons_append, List.dropWhile_cons, ha, if_true]
    exact ih (fun x hx => hxs x (by simp [hx]))

theorem strtokTokens_joinSep (isSep : Char → Bool) (sep : Char) (hsep : isSep sep = true)
    (ws : List (List Char)) (hw : ∀ w ∈ ws, ∀ c ∈ w, isSep c = false) :
    strtokTokens isSep (joinSep sep ws) = ws.filter (fun w => !w.isEmpty) := by
  induction ws with
  | nil => rfl
  | cons w ws ih =>
    have hwhead : ∀ c ∈ w, isSep c = false := fun c hc => hw w (by simp) c hc
    have hwtail : ∀ v ∈ ws, ∀ c ∈ v, isSep c = false :=
      fun v hv c hc => hw v (by simp [hv]) c hc
    cases ws with
    | nil =>
      cases w with
      | nil => rfl
      | cons c w' =>
        have hc : isSep c = false := hwhead c (by simp)
        have hw' : ∀ x ∈ w', (fun d => !isSep d) x = true := by
          intro x hx
          simp [hwhead x (by simp [hx])]
        have htw : w'.takeWhile (fun d => !isSep d) = w' :=
          List.takeWhile_eq_self_iff.mpr hw'
        have hdw : w'.dropWhile (fun d => !isSep d) = [] :=
          List.dropWhile_eq_nil_iff.mpr (fun x hx => hw' x hx)
        show strtokTokens isSep (c :: w') = List.filter (fun w => !w.isEmpty) [c :: w']
        rw [strtokTokens_cons, if_neg (by simp [hc]), htw, hdw]
        simp [List.filter, strtokTokens, strtokAux]
    | cons w2 ws2 =>
      have hjoin : joinSep sep (w :: w2 :: ws2) = w ++ sep :: joinSep sep (w2 :: ws2) := rfl
      cases w with
      | nil =>
        simp only [hjoin, List.nil_append, strtokTokens_cons, hsep, if_true]
        rw [ih hwtail]
        simp [List.filter]
      | cons c w' =>
        have hc : isSep c = false := hwhead c (by simp)
        have hw' : ∀ x ∈ w', (fun d => !isSep d) x = true := by
          intro x hx
          simp [hwhead x (by simp [hx])]
        have hsep' : (fun d => !isSep d) sep = false := by simp [hsep]
        simp only [hjoin, List.cons_append, strtokTokens_cons, hc, Bool.false_eq_true, if_false]
        rw [takeWhile_append_stop _ w' sep _ hw' hsep',
          dropWhile_append_stop _ w' sep _ hw' hsep']
        rw [strtokTokens_cons, if_pos hsep, ih hwtail]
        simp [List.filter]

theorem spTokens_joinSep (ws : List (List Char))
    (hne : ∀ w ∈ ws, w ≠ []) (hsp : ∀ w ∈ ws, ∀ c ∈ w, (c == ' ') = false) :
    spTokens (joinSep ' ' ws) = ws := by
  induction ws with
  | nil => rfl
  | cons w ws ih =>
    have hwhead : ∀ c ∈ w, (c == ' ') = false := fun c hc => hsp w (by simp) c hc
    have hwtail1 : ∀ v ∈ ws, v ≠ [] := fun v hv => hne v (by simp [hv])
    have hwtail2 : ∀ v ∈ ws, ∀ c ∈ v, (c == ' ') = false :=
      fun v hv c hc => hsp v (by simp [hv]) c hc
    cases ws with
    | nil =>
      cases w with
      | nil => exact absurd rfl (hne [] (by simp))
      | cons c w' =>
        have hw' : ∀ x ∈ c :: w', (fun d => !(d == ' ')) x = true := by
          intro x hx
          simp [hwhead x hx]
        have htw : (c :: w').takeWhile (fun d => !(d == ' ')) = c :: w' :=
          List.takeWhile_eq_self_iff.mpr hw'
        have hdw : (c :: w').dropWhile (fun d => !(d == ' ')) = [] :=
          List.dropWhile_eq_nil_iff.mpr (fun x hx => hw' x hx)
        show spTokens (c :: w') = [c :: w']
        rw [spTokens_cons, htw, hdw]
        simp [spTokens, spAux]
    | cons w2 ws2 =>
      have hjoin : joinSep ' ' (w :: w2 :: ws2) = w ++ ' ' :: joinSep ' ' (w2 :: ws2) := rfl
      cases w with
      | nil => exact absurd rfl (hne [] (by simp))
      | cons c w' =>
        have hw' : ∀ x ∈ c :: w', (fun d => !(d == ' ')) x = true := by
          intro x hx
          simp [hwhead x hx]
        have hstop : (fun d => !(d == ' ')) ' ' = false := by simp
        have htw : ((c :: w') ++ ' ' :: joinSep ' ' (w2 :: ws2)).takeWhile
            (fun d => !(d == ' ')) = c :: w' :=
          takeWhile_append_stop _ _ ' ' _ hw' hstop
        have hdw : ((c :: w') ++ ' ' :: joinSep ' ' (w2 :: ws2)).dropWhile
            (fun d => !(d == ' ')) = ' ' :: joinSep ' ' (w2 :: ws2) :=
          dropWhile_append_stop _ _ ' ' _ hw' hstop
        rw [hjoin]
        rw [show ((c :: w') ++ ' ' :: joinSep ' ' (w2 :: ws2)) =
          c :: (w' ++ ' ' :: joinSep ' ' (w2 :: ws2)) from rfl]
        rw [spTokens_cons]
        rw [show (c :: (w' ++ ' ' :: joinSep ' ' (w2 :: ws2))) =
          ((c :: w') ++ ' ' :: joinSep ' ' (w2 :: ws2)) from rfl, htw, hdw]
        simp only [List.drop_one, List.tail_cons]
        rw [ih hwtail1 hwtail2]

/-! ## C10: empty path levels are skipped -/

theorem wallet_generate_key_mslash (ckd ckdPrime : HDNode → Nat → Option HDNode)
    (getPub : List Nat → List Nat) (X : List Char) (master chain : List Nat) :
    wallet_generate_key ckd ckdPrime getPub ('m' :: '/' :: X) master chain =
      processLevels ckd ckdPrime (strtokTokens isSlash X)
        { depth := 0, fingerprint := 0, child_num := 0
          chain_code := chain.take 32
          private_key := master.take 32
          public_key := getPub (master.take 32) } := by
  simp only [wallet_generate_key, List.length_cons, List.getD_cons_zero, List.getD_cons_succ,
    List.drop_succ_cons, List.drop_zero]
  rw [if_neg (show ¬(X.length + 1 + 1 < 2) by omega)]
  simp

/-- C10: `wallet_generate_key` skips empty path levels rather than
rejecting them: for every level sequence (no level containing `/`), the
path built with possibly-empty levels (consecutive or trailing separators)
derives exactly what the path with the empty levels removed derives —
`strtok` never yields empty tokens. -/
theorem wallet_generate_key_skips_empty_levels
    (ckd ckdPrime : HDNode → Nat → Option HDNode) (getPub : List Nat → List Nat)
    (master chain : List Nat) (levels : List (List Char))
    (h : ∀ l ∈ levels, ∀ c ∈ l, isSlash c = false) :
    wallet_generate_key ckd ckdPrime getPub ('m' :: '/' :: joinSep '/' levels) master chain =
      wallet_generate_key ckd ckdPrime getPub
        ('m' :: '/' :: joinSep '/' (levels.filter (fun l => !l.isEmpty))) master chain := by
  have hslash : isSlash '/' = true := by decide
  have h2 : ∀ l ∈ levels.filter (fun l => !l.isEmpty), ∀ c ∈ l, isSlash c = false :=
    fun l hl => h l (List.mem_of_mem_filter hl)
  rw [wallet_generate_key_mslash, wallet_generate_key_mslash]
  rw [strtokTokens_joinSep isSlash '/' hslash levels h,
    strtokTokens_joinSep isSlash '/' hslash _ h2,
    List.filter_eq_self.mpr (fun a ha => (List.mem_filter.mp ha).2)]

/-- Closed instance: `m//0'` and `m/0'` derive the same node. -/
theorem wallet_generate_key_skips_empty_levels_witness :
    wallet_generate_key ckdC ckdC pubC ['m', '/', '/', '0', Char.ofNat 39] masterC masterC =
      wallet_generate_key ckdC ckdC pubC ['m', '/', '0', Char.ofNat 39] masterC masterC :=
  wallet_generate_key_skips_empty_levels ckdC ckdC pubC masterC masterC
    [[], ['0', Char.ofNat 39]] (by decide)

/-! ## C7: path parse errors in wallet_generate_key -/

theorem scanLevel_none_of_bad :
    ∀ (tok : List Char) (i : Nat), i < tok.length →
      (tok.getD i 'x').isDigit = false →
      ¬(isPrimeChar (tok.getD i 'x') = true ∧ i + 1 = tok.length) →
      scanLevel tok = none := by
  intro tok
  induction tok with
  | nil => intro i hi _ _; simp at hi
  | cons c rest ih =>
    intro i hi hd hp
    cases i with
    | zero =>
      simp only [List.getD_cons_zero] at hd hp
      by_cases hpc : isPrimeChar c
      · have hrest : rest ≠ [] := by
          intro he
          exact hp ⟨hpc, by simp [he]⟩
        simp only [scanLevel, if_pos hpc]
        rw [if_neg (by simp [List.isEmpty_iff, hrest])]
      · simp [scanLevel, hpc, hd]
    | succ i' =>
      have hi' : i' < rest.length := by simpa using hi
      simp only [List.getD_cons_succ] at hd hp
      by_cases hpc : isPrimeChar c
      · have hrest : rest ≠ [] := List.ne_nil_of_length_pos (by omega)
        simp only [scanLevel, if_pos hpc]
        rw [if_neg (by simp [List.isEmpty_iff, hrest])]
      · by_cases hdc : c.isDigit
        · simp only [scanLevel, if_neg hpc, if_pos hdc]
          refine ih i' hi' hd ?_
          rintro ⟨h1, h2⟩
          refine hp ⟨h1, ?_⟩
          simp only [List.length_cons]
          omega
        · simp [scanLevel, hpc, hdc]

theorem processLevels_none_of_tok (ckd ckdPrime : HDNode → Nat → Option HDNode)
    (toks : List (List Char)) (tok : List Char) (ht : tok ∈ toks)
    (hbad : scanLevel tok = none ∨ 4294967295 < strtoullDec tok) :
    ∀ node, processLevels ckd ckdPrime toks node = none := by
  induction toks with
  | nil => simp at ht
  | cons t ts ih =>
    intro node
    rcases List.mem_cons.mp ht with rfl | hmem
    · rcases hbad with h | h
      · simp [processLevels, h]
      · cases hsc : scanLevel tok with
        | none => simp [processLevels, hsc]
        | some prm =>
          simp only [processLevels, hsc]
          rw [if_pos h]
    · simp only [processLevels]
      cases hsc : scanLevel t with
      | none => rfl
      | some prm =>
        show (if 4294967295 < strtoullDec t then none
              else match (if prm = true then ckdPrime else ckd) node (strtoullDec t) with
                   | none => none
                   | some node2 => processLevels ckd ckdPrime ts node2) = none
        by_cases hidx : 4294967295 < strtoullDec t
        · rw [if_pos hidx]
        · rw [if_neg hidx]
          cases hc : (if prm = true then ckdPrime else ckd) node (strtoullDec t) with
          | none => simp [hc]
          | some n2 => simp only [hc]; exact ih hmem n2

/-- C7: `wallet_generate_key` returns an error (1) for every keypath that
does not begin with `m/` (too short, or wrong first two characters);
(2) for every path level token containing a character that is neither a
decimal digit nor a single trailing hardened marker; (3) for every level
whose parsed index exceeds the u32 maximum; and (4) in particular for the
path `m/0/xyz` — all regardless of the CKD collaborators. -/
theorem wallet_generate_key_path_errors (ckd ckdPrime : HDNode → Nat → Option HDNode)
    (getPub : List Nat → List Nat) (master chain : List Nat) :
    (∀ keypath : List Char,
        (keypath.length < 2 ∨ keypath.getD 0 'x' ≠ 'm' ∨ keypath.getD 1 'x' ≠ '/') →
        wallet_generate_key ckd ckdPrime getPub keypath master chain = none) ∧
    (∀ keypath tok, tok ∈ strtokTokens isSlash (keypath.drop 2) →
        (∃ i, i < tok.length ∧ (tok.getD i 'x').isDigit = false ∧
          ¬(isPrimeChar (tok.getD i 'x') = true ∧ i + 1 = tok.length)) →
        wallet_generate_key ckd ckdPrime getPub keypath master chain = none) ∧
    (∀ keypath tok, tok ∈ strtokTokens isSlash (keypath.drop 2) →
        4294967295 < strtoullDec tok →
        wallet_generate_key ckd ckdPrime getPub keypath master chain = none) ∧
    wallet_generate_key ckd ckdPrime getPub ['m', '/', '0', '/', 'x', 'y', 'z'] master chain
      = none := by
  have hgen : ∀ keypath tok, tok ∈ strtokTokens isSlash (keypath.drop 2) →
      (scanLevel tok = none ∨ 4294967295 < strtoullDec tok) →
      wallet_generate_key ckd ckdPrime getPub keypath master chain = none := by
    intro keypath tok hmem hbad
    by_cases h1 : keypath.length < 2
    · simp [wallet_generate_key, h1]
    · by_cases h2 : keypath.getD 0 'x' = 'm' ∧ keypath.getD 1 'x' = '/'
      · simp only [wallet_generate_key, if_neg h1]
        rw [if_neg (not_not_intro h2)]
        exact processLevels_none_of_tok ckd ckdPrime _ tok hmem hbad _
      · simp only [wallet_generate_key, if_neg h1]
        rw [if_pos h2]
  refine ⟨?_, ?_, ?_, ?_⟩
  · intro keypath hbad
    rcases hbad with h | h | h
    · simp [wallet_generate_key, h]
    · by_cases h1 : keypath.length < 2
      · simp [wallet_generate_key, h1]
      · simp only [wallet_generate_key, if_neg h1]
        rw [if_pos (show ¬(keypath.getD 0 'x' = 'm' ∧ keypath.getD 1 'x' = '/') from
          fun hc => h hc.1)]
    · by_cases h1 : keypath.length < 2
      · simp [wallet_generate_key, h1]
      · simp only [wallet_generate_key, if_neg h1]
        rw [if_pos (show ¬(keypath.getD 0 'x' = 'm' ∧ keypath.getD 1 'x' = '/') from
          fun hc => h hc.2)]
  · intro keypath tok hmem hbad
    rcases hbad with ⟨i, hi, hd, hp⟩
    exact hgen keypath tok hmem (Or.inl (scanLevel_none_of_bad tok i hi hd hp))
  · intro keypath tok hmem hidx
    exact hgen keypath tok hmem (Or.inr hidx)
  · refine hgen ['m', '/', '0', '/', 'x', 'y', 'z'] ['x', 'y', 'z'] (by decide)
      (Or.inl (by decide))

/-- Closed instances of the four parts of the path-error theorem: a short
path, the bad-token path `m/0/xyz` (via the general part at token `xyz`),
a path with an index beyond the u32 maximum, and the concrete `m/0/xyz`
instance. -/
theorem wallet_generate_key_path_errors_witness :
    wallet_generate_key ckdC ckdC pubC ['x'] masterC masterC = none ∧
    wallet_generate_key ckdC ckdC pubC ['m', '/', '0', '/', 'x', 'y', 'z'] masterC masterC
      = none ∧
    wallet_generate_key ckdC ckdC pubC
      ['m', '/', '5', '0', '0', '0', '0', '0', '0', '0', '0', '0'] masterC masterC = none := by
  refine ⟨?_, ?_, ?_⟩
  · exact (wallet_generate_key_path_errors ckdC ckdC pubC masterC masterC).1 ['x']
      (by decide)
  · exact (wallet_generate_key_path_errors ckdC ckdC pubC masterC masterC).2.1 _
      ['x', 'y', 'z'] (by decide) ⟨0, by decide, by decide, by decide⟩
  · exact (wallet_generate_key_path_errors ckdC ckdC pubC masterC masterC).2.2.1 _
      ['5', '0', '0', '0', '0', '0', '0', '0', '0', '0'] (by decide) (by decide)

/-! ## C8: the hash-length check of wallet_sign fires first -/

/-- C8: with `to_hash == false`, `wallet_sign` fails with `SIGN_HASH_LEN`
whenever the message is not exactly 64 (hex) characters, and it does so
before the seeded and derivation checks: the conclusion holds for every
state of the secure memory (even unseeded) and every CKD/ECC
collaborator. -/
theorem wallet_sign_hash_len_first (ckd ckdPrime : HDNode → Nat → Option HDNode)
    (getPub : List Nat → List Nat)
    (signDouble signDigest : List Nat → List Nat → Option (List Nat))
    (memMaster memChain sentinel : List Nat) (message keypath : List Char)
    (h : message.length ≠ 64) :
    wallet_sign ckd ckdPrime getPub signDouble signDigest memMaster memChain sentinel
      message keypath false = SignResult.errHashLen := by
  simp [wallet_sign, h]

/-- Closed instance: a 62-character message with an unseeded memory still
reports the hash-length error (not the seeded error). -/
theorem wallet_sign_hash_len_first_witness :
    (List.replicate 62 'a').length ≠ 64 ∧
    wallet_sign ckdC ckdC pubC (fun _ _ => none) (fun _ _ => none) sentinelC sentinelC
      sentinelC (List.replicate 62 'a') ['m', '/'] false = SignResult.errHashLen :=
  ⟨by decide,
    wallet_sign_hash_len_first ckdC ckdC pubC (fun _ _ => none) (fun _ _ => none)
      sentinelC sentinelC sentinelC (List.replicate 62 'a') ['m', '/'] (by decide)⟩

/-! ## C9: NULL mnemonic seeds from the RNG -/

/-- C9: with a NULL mnemonic, `wallet_master_from_mnemonic` fills the seed
buffer from the RNG collaborator instead of failing: an RNG failure gives
`DBB_ERROR_MEM` with the stored master key and chain code untouched, and
an RNG success stores exactly the master secret `hdnode_from_seed` derives
from the fresh 64-byte seed (whenever that derivation succeeds and does
not collide with the erasure sentinel). -/
theorem wallet_master_from_mnemonic_null_rng (sha : List Nat → List Nat)
    (wl : List (List Char)) (fromSeed : List Nat → Option HDNode)
    (pbkdf2 : List Nat → List Nat → List Nat) (sentinel : List Nat)
    (salt : List Char) (s0 : WalletStatics) :
    ((wallet_master_from_mnemonic sha wl none fromSeed pbkdf2 sentinel none salt s0).1
        = Dbb.errorMem ∧
      (wallet_master_from_mnemonic sha wl none fromSeed pbkdf2 sentinel none salt s0).2.memMaster
        = s0.memMaster ∧
      (wallet_master_from_mnemonic sha wl none fromSeed pbkdf2 sentinel none salt s0).2.memChain
        = s0.memChain) ∧
    (∀ (r : List Nat) (node : HDNode),
      fromSeed (padTo 64 (r.take 64)) = some node →
      wallet_seeded node.private_key node.chain_code sentinel = Dbb.ok →
      (wallet_master_from_mnemonic sha wl (some r) fromSeed pbkdf2 sentinel none salt s0).1
          = Dbb.ok ∧
        (wallet_master_from_mnemonic sha wl (some r) fromSeed pbkdf2 sentinel none salt
            s0).2.memMaster = node.private_key ∧
        (wallet_master_from_mnemonic sha wl (some r) fromSeed pbkdf2 sentinel none salt
            s0).2.memChain = node.chain_code) := by
  constructor
  · exact ⟨rfl, rfl, rfl⟩
  · intro r node hnode hok
    simp only [wallet_master_from_mnemonic, wallet_master_tail, clear_static_variables, hnode,
      hok, if_pos]
    exact ⟨trivial, trivial, trivial⟩

/-- Closed instance: RNG failure reports `DBB_ERROR_MEM`; RNG success
seeds the wallet with the derived master secret. -/
theorem wallet_master_from_mnemonic_null_rng_witness :
    (wallet_master_from_mnemonic shaC wlC none fromSeedC pbkdf2C sentinelC none []
        zeroStatics).1 = Dbb.errorMem ∧
    (wallet_master_from_mnemonic shaC wlC (some (List.replicate 64 7)) fromSeedC pbkdf2C
        sentinelC none [] zeroStatics).1 = Dbb.ok ∧
    (wallet_master_from_mnemonic shaC wlC (some (List.replicate 64 7)) fromSeedC pbkdf2C
        sentinelC none [] zeroStatics).2.memMaster = List.replicate 32 2 := by
  have h := wallet_master_from_mnemonic_null_rng shaC wlC fromSeedC pbkdf2C sentinelC []
    zeroStatics
  have h2 := h.2 (List.replicate 64 7)
    ⟨0, 0, 0, List.replicate 32 3, List.replicate 32 2, List.replicate 33 2⟩ rfl (by decide)
  exact ⟨h.1.1, h2.1, h2.2.1⟩

/-! ## C3: truncation after the last varint is reported as success -/

/-- C3 (code bug): the transaction `tx44` is truncated inside its only
output script — the script-length varint announces 25 bytes (50 hex
characters) but only 14 characters remain — yet `wallet_get_outputs`
returns success with the partial outputs region: the structural walk needs
2 + 16 + 2 + 50 = 70 characters from the outputs start, only 34 exist, and
no bounds check runs after the last varint read. -/
theorem wallet_get_outputs_truncated_partial_success :
    wallet_get_outputs tx44 1000 = some (tx44.drop 10) ∧
    (tx44.drop 10).length = 34 ∧ tx44.length = 44 ∧ ¬(2 + 16 + 2 + 25 * 2 ≤ 34) := by
  decide

/-! ## C2: the tokenizer and salt statics survive every exit -/

set_option maxRecDepth 4000 in
/-- C2 (code bug): `clear_static_variables` zeroes only `mnemonic`, `seed`
and `rand_data_32`.  After `wallet_master_from_mnemonic` returns — on the
error path (mnemonic `"a"`, rejected by the word-count check) as on the
success path (a valid 12-word mnemonic) — the static `msg` buffer of
`wallet_split_seed` still holds the mnemonic bytes (first byte `97`,
`'a'`), and after a successful seeding the static `salt` buffer of
`wallet_mnemonic_to_seed` still holds `"mnemonic" ‖ passphrase` (first
byte `109`, `'m'`): the scratch regions are not all zero. -/
theorem wallet_master_from_mnemonic_scratch_leak :
    ((wallet_master_from_mnemonic shaC wlC none fromSeedC pbkdf2C sentinelC (some ['a']) []
        zeroStatics).1 = Dbb.error ∧
      (wallet_master_from_mnemonic shaC wlC none fromSeedC pbkdf2C sentinelC (some ['a']) []
        zeroStatics).2.splitMsg.getD 0 0 = 97) ∧
    ((wallet_master_from_mnemonic shaC wlC none fromSeedC pbkdf2C sentinelC (some mnemonic12)
        [] zeroStatics).1 = Dbb.ok ∧
      (wallet_master_from_mnemonic shaC wlC none fromSeedC pbkdf2C sentinelC (some mnemonic12)
        [] zeroStatics).2.splitMsg.getD 0 0 = 97 ∧
      (wallet_master_from_mnemonic shaC wlC none fromSeedC pbkdf2C sentinelC (some mnemonic12)
        [] zeroStatics).2.saltBuf.getD 0 0 = 109) := by
  decide

/-! ## C1: the change-address policy of wallet_deserialize_output -/

theorem hexVal_hexDigitChar : ∀ d, d < 16 → hexVal (hexDigitChar d) = d := by decide

theorem readHexByte_byteToHex (b : Nat) (h : b < 256) (r : List Char) :
    readHexByte (byteToHex b ++ r) = b := by
  have h1 : b / 16 < 16 := by omega
  have h2 : b % 16 < 16 := by omega
  simp only [byteToHex, List.cons_append, readHexByte, List.getD_cons_zero, List.getD_cons_succ]
  rw [hexVal_hexDigitChar _ h1, hexVal_hexDigitChar _ h2]
  omega

theorem readHexLE_natLEBytes :
    ∀ (k n : Nat), n < 2 ^ (8 * k) → ∀ (r : List Char),
      readHexLE (((natLEBytes n k).map byteToHex).flatten ++ r) k = n := by
  intro k
  induction k with
  | zero =>
    intro n h r
    have : n = 0 := by simpa using h
    subst this
    rfl
  | succ k ih =>
    intro n h r
    have hd : n / 256 < 2 ^ (8 * k) := by
      have hpow : 2 ^ (8 * (k + 1)) = 2 ^ (8 * k) * 256 := by
        rw [show 8 * (k + 1) = 8 * k + 8 from by ring, pow_add]
        norm_num
      rw [hpow] at h
      omega
    simp only [natLEBytes, List.map_cons, List.flatten_cons, List.append_assoc]
    simp only [readHexLE]
    rw [readHexByte_byteToHex (n % 256) (by omega)]
    have hdrop : ∀ (X : List Char), (byteToHex (n % 256) ++ X).drop 2 = X := by
      intro X
      simp [byteToHex]
    rw [hdrop, ih (n / 256) hd r]
    omega

theorem serVarint_small (m : Nat) (h : m < 253) : serVarint m = byteToHex m := by
  simp [serVarint, h]

theorem readVarint_serVarint (n : Nat) (h : n < 2 ^ 64) (r : List Char) :
    readVarint (serVarint n ++ r) = (n, (serVarint n).length) := by
  by_cases h1 : n < 253
  · rw [serVarint_small n h1]
    simp only [readVarint]
    rw [readHexByte_byteToHex n (by omega)]
    rw [if_pos h1]
    simp [byteToHex]
  · have hflat : ∀ (bs : List Nat), ((bs.map byteToHex).flatten).length = 2 * bs.length := by
      intro bs
      induction bs with
      | nil => rfl
      | cons b bs ih => simp [byteToHex, ih]; ring
    have hlenLE : ∀ (m k : Nat), (natLEBytes m k).length = k := by
      intro m k
      induction k generalizing m with
      | zero => rfl
      | succ k ih => simp [natLEBytes, ih]
    by_cases h2 : n < 65536
    · simp only [serVarint, if_neg h1, if_pos h2, List.append_assoc]
      simp only [readVarint]
      rw [readHexByte_byteToHex 253 (by omega)]
      rw [if_neg (by omega), if_pos rfl]
      have hdrop : ∀ (X : List Char), (byteToHex 253 ++ X).drop 2 = X := by
        intro X
        simp [byteToHex]
      rw [hdrop, readHexLE_natLEBytes 2 n (by omega) r]
      simp [byteToHex, hflat, hlenLE]
    · by_cases h3 : n < 4294967296
      · simp only [serVarint, if_neg h1, if_neg h2, if_pos h3, List.append_assoc]
        simp only [readVarint]
        rw [readHexByte_byteToHex 254 (by omega)]
        rw [if_neg (by omega), if_neg (by omega), if_pos rfl]
        have hdrop : ∀ (X : List Char), (byteToHex 254 ++ X).drop 2 = X := by
          intro X
          simp [byteToHex]
        rw [hdrop, readHexLE_natLEBytes 4 n (by omega) r]
        simp [byteToHex, hflat, hlenLE]
      · simp only [serVarint, if_neg h1, if_neg h2, if_neg h3, List.append_assoc]
        simp only [readVarint]
        rw [readHexByte_byteToHex 255 (by omega)]
        rw [if_neg (by omega), if_neg (by omega), if_neg (by omega)]
        have hdrop : ∀ (X : List Char), (byteToHex 255 ++ X).drop 2 = X := by
          intro X
          simp [byteToHex]
        rw [hdrop, readHexLE_natLEBytes 8 n (by omega) r]
        simp [byteToHex, hflat, hlenLE]

theorem deserLoop_serOutputs (hash : List Char) :
    ∀ (outs : List (List Char × List Char)) (found : Nat) (rest : List Char),
      rest = [] →
      (∀ o ∈ outs, o.1.length = 16) →
      (∀ o ∈ outs, o.2.length % 2 = 0 ∧ 14 ≤ o.2.length ∧ o.2.length ≤ 254) →
      ∃ em, deserLoop true (some hash) ((outs.map serOutput).flatten ++ rest) outs.length found
        = some (found + (outs.filter (fun o => containsSub hash o.2)).length, em) := by
  intro outs
  induction outs with
  | nil =>
    intro found rest hrest _ _
    subst hrest
    exact ⟨[], rfl⟩
  | cons o outs ih =>
    intro found rest hrest hval hscr
    have hv : o.1.length = 16 := hval o (by simp)
    have hs : o.2.length % 2 = 0 ∧ 14 ≤ o.2.length ∧ o.2.length ≤ 254 := hscr o (by simp)
    have hl2 : o.2.length / 2 < 253 := by omega
    have hser : serVarint (o.2.length / 2) = byteToHex (o.2.length / 2) :=
      serVarint_small _ hl2
    have hstring : ((o :: outs).map serOutput).flatten ++ rest =
        o.1 ++ (serVarint (o.2.length / 2) ++ (o.2 ++ ((outs.map serOutput).flatten ++ rest))) := by
      simp [serOutput, List.append_assoc]
    rw [hstring]
    simp only [List.length_cons, deserLoop]
    have hdrop16 : (o.1 ++ (serVarint (o.2.length / 2) ++
        (o.2 ++ ((outs.map serOutput).flatten ++ rest)))).drop 16 =
        serVarint (o.2.length / 2) ++ (o.2 ++ ((outs.map serOutput).flatten ++ rest)) := by
      rw [← hv, List.drop_left]
    rw [hdrop16]
    have hlen : ¬((serVarint (o.2.length / 2) ++
        (o.2 ++ ((outs.map serOutput).flatten ++ rest))).length < 16) := by
      simp only [List.length_append, hser, byteToHex, List.length_cons]
      omega
    rw [if_neg hlen]
    rw [readVarint_serVarint _ (by omega) _]
    have hdropv : (serVarint (o.2.length / 2) ++ (o.2 ++ ((outs.map serOutput).flatten
        ++ rest))).drop ((serVarint (o.2.length / 2)).length) =
        o.2 ++ ((outs.map serOutput).flatten ++ rest) := List.drop_left _ _
    simp only [hdropv]
    have hdouble : o.2.length / 2 * 2 = o.2.length := by omega
    have htake : (o.2 ++ ((outs.map serOutput).flatten ++ rest)).take
        (min (o.2.length / 2 * 2) 255) = o.2 := by
      rw [hdouble, min_eq_left (by omega)]
      exact List.take_left _ _
    have hdrops : (o.2 ++ ((outs.map serOutput).flatten ++ rest)).drop
        (o.2.length / 2 * 2) = (outs.map serOutput).flatten ++ rest := by
      rw [hdouble]
      exact List.drop_left _ _
    simp only [htake, hdrops, if_true]
    by_cases hc : containsSub hash o.2 = true
    · obtain ⟨em, hem⟩ := ih (found + 1) rest hrest (fun x hx => hval x (by simp [hx]))
        (fun x hx => hscr x (by simp [hx]))
      refine ⟨em, ?_⟩
      rw [if_pos hc, hem]
      have hcnt : (List.filter (fun o => containsSub hash o.2) (o :: outs)).length =
          (List.filter (fun o => containsSub hash o.2) outs).length + 1 := by
        simp [List.filter_cons, hc]
      rw [hcnt]
      have harith : found + 1 + (List.filter (fun o => containsSub hash o.2) outs).length =
          found + ((List.filter (fun o => containsSub hash o.2) outs).length + 1) := by omega
      rw [harith]
    · obtain ⟨em, hem⟩ := ih found rest hrest (fun x hx => hval x (by simp [hx]))
        (fun x hx => hscr x (by simp [hx]))
      refine ⟨(strtoullHex (reverseHexPairs ((o.1 ++ (serVarint (o.2.length / 2) ++
        (o.2 ++ ((outs.map serOutput).flatten ++ rest)))).take 16)), o.2) :: em, ?_⟩
      rw [if_neg hc, hem]
      have hcnt : (List.filter (fun o => containsSub hash o.2) (o :: outs)).length =
          (List.filter (fun o => containsSub hash o.2) outs).length := by
        simp [List.filter_cons, hc]
      rw [hcnt]

/-- C1 (amended): for a well-formed outputs string (each value 16
characters, each script of 7–127 bytes so that its hex fits the 255-char
`outaddr` capture), with the wallet seeded and the change-keypath
derivation succeeding, `wallet_deserialize_output` succeeds iff some
output's script hex contains the hex of HASH160 of the derived key, or the
output count is 1.  (Scripts of ≥ 128 bytes escape the `strstr` window and
a final script of < 7 bytes trips the loop's bounds check — see the
counterexample.) -/
theorem wallet_deserialize_output_change_policy
    (ckd ckdPrime : HDNode → Nat → Option HDNode) (getPub sha rip : List Nat → List Nat)
    (master chain sentinel : List Nat) (keypath : List Char) (node : HDNode)
    (outs : List (List Char × List Char))
    (hseed : wallet_seeded master chain sentinel = Dbb.ok)
    (hkp : keypath ≠ [])
    (hgen : wallet_generate_key ckd ckdPrime getPub keypath master chain = some node)
    (hval : ∀ o ∈ outs, o.1.length = 16)
    (hscr : ∀ o ∈ outs, o.2.length % 2 = 0 ∧ 14 ≤ o.2.length ∧ o.2.length ≤ 254)
    (hn : outs.length < 2 ^ 64) :
    (wallet_deserialize_output ckd ckdPrime getPub sha rip master chain sentinel
        (serOutputs outs) keypath = Dbb.ok
      ↔ ((∃ o ∈ outs, containsSub
            (bytesToHex ((wallet_get_pubkeyhash sha rip (getPub node.private_key)).take 20))
            o.2 = true) ∨ outs.length = 1)) := by
  have husep : keypath.length ≠ 0 := by
    intro h
    exact hkp (List.eq_nil_of_length_eq_zero h)
  cases outs with
  | nil =>
    have hshort : (serOutputs ([] : List (List Char × List Char))).length < 16 := by decide
    simp only [wallet_deserialize_output, hseed]
    rw [if_neg (by simp), if_pos hshort]
    simp
  | cons o outs' =>
    have hv : o.1.length = 16 := hval o (by simp)
    have hs : o.2.length % 2 = 0 ∧ 14 ≤ o.2.length ∧ o.2.length ≤ 254 := hscr o (by simp)
    have hflat1 : (((o :: outs').map serOutput).flatten).length =
        (serOutput o).length + ((outs'.map serOutput).flatten).length := by
      simp
    have hso : (serOutput o).length = 16 + 2 + o.2.length := by
      simp [serOutput, serVarint_small _ (show o.2.length / 2 < 253 by omega), byteToHex, hv]
      omega
    have hlong : ¬((serOutputs (o :: outs')).length < 16) := by
      simp only [serOutputs, List.length_append, hflat1, hso]
      omega
    have husepb : (decide (keypath.length ≠ 0)) = true := decide_eq_true husep
    obtain ⟨em, hem⟩ := deserLoop_serOutputs
      (bytesToHex ((wallet_get_pubkeyhash sha rip (getPub node.private_key)).take 20))
      (o :: outs') 0 [] rfl hval hscr
    rw [List.append_nil] at hem
    have hdropv : (serVarint ((o :: outs').length) ++ ((o :: outs').map serOutput).flatten).drop
        ((serVarint ((o :: outs').length)).length) = ((o :: outs').map serOutput).flatten :=
      List.drop_left _ _
    simp only [wallet_deserialize_output, hseed]
    rw [if_neg (by simp), if_neg hlong]
    simp only [serOutputs, readVarint_serVarint _ hn, hdropv, hgen, husepb, hem]
    have hfilter : ((o :: outs').filter (fun x => containsSub
        (bytesToHex ((wallet_get_pubkeyhash sha rip (getPub node.private_key)).take 20))
        x.2)).length ≠ 0 ↔
        (∃ x ∈ o :: outs', containsSub
          (bytesToHex ((wallet_get_pubkeyhash sha rip (getPub node.private_key)).take 20))
          x.2 = true) := by
      rw [Ne, List.length_eq_zero, List.filter_eq_nil_iff]
      push_neg
      simp
    by_cases hcond : (0 + ((o :: outs').filter (fun x => containsSub
        (bytesToHex ((wallet_get_pubkeyhash sha rip (getPub node.private_key)).take 20))
        x.2)).length ≠ 0 ∨ (o :: outs').length = 1)
    · rw [if_pos hcond]
      simp only [Nat.zero_add] at hcond
      constructor
      · intro _
        rcases hcond with h | h
        · exact Or.inl (hfilter.mp h)
        · exact Or.inr h
      · intro _
        rfl
    · rw [if_neg hcond]
      simp only [Nat.zero_add] at hcond
      push_neg at hcond
      constructor
      · intro h
        exact Dbb.noConfusion h
      · intro h
        rcases h with h | h
        · exact absurd (hfilter.mpr h) (by omega)
        · exact absurd h hcond.2

set_option maxRecDepth 8000 in
/-- C1 counterexample (closed): with the concrete collaborators the
derived change HASH160 hex is `hash40`.  (1) In `outsBig` (two outputs),
the first script *does* contain `hash40` — but only past character 255, so
the `snprintf`-capped `outaddr` capture misses it and the call returns
`DBB_ERROR` although the claim demands success.  (2) For `outsTiny`
(`n_cnt = 1`, which the claim says always succeeds) the 1-byte final
script leaves fewer than 16 characters after the value field, the loop's
bounds check fires, and the call returns `DBB_ERROR`. -/
theorem wallet_deserialize_output_policy_counterexample :
    bytesToHex ((wallet_get_pubkeyhash shaC ripC (pubC nodeC.private_key)).take 20)
      = hash40 ∧
    wallet_generate_key ckdC ckdC pubC ['m', '/'] masterC masterC = some nodeC ∧
    containsSub hash40 script296 = true ∧
    wallet_deserialize_output ckdC ckdC pubC shaC ripC masterC masterC sentinelC
      (serOutputs outsBig) ['m', '/'] = Dbb.error ∧
    outsTiny.length = 1 ∧
    wallet_deserialize_output ckdC ckdC pubC shaC ripC masterC masterC sentinelC
      (serOutputs outsTiny) ['m', '/'] = Dbb.error := by
  decide

/-- Closed instance of the amended change policy: a single output whose
script is exactly the derived change hash satisfies both sides of the
equivalence. -/
theorem wallet_deserialize_output_change_policy_witness :
    (wallet_deserialize_output ckdC ckdC pubC shaC ripC masterC masterC sentinelC
        (serOutputs outsW) ['m', '/'] = Dbb.ok
      ↔ ((∃ o ∈ outsW, containsSub
            (bytesToHex ((wallet_get_pubkeyhash shaC ripC (pubC nodeC.private_key)).take 20))
            o.2 = true) ∨ outsW.length = 1)) :=
  wallet_deserialize_output_change_policy ckdC ckdC pubC shaC ripC masterC masterC sentinelC
    ['m', '/'] nodeC outsW (by decide) (by decide) (by decide) (by decide) (by decide)
    (by decide)

/-! ## C5: overlong tokens are always rejected -/

theorem dropWhile_head_false (p : Char → Bool) :
    ∀ (l : List Char) (d : Char) (r : List Char), l.dropWhile p = d :: r → p d = false := by
  intro l
  induction l with
  | nil => intro d r h; simp [List.dropWhile] at h
  | cons a as ih =>
    intro d r h
    rw [List.dropWhile_cons] at h
    by_cases ha : p a
    · exact ih d r (by simpa [ha] using h)
    · have had : a = d := by
        have h2 : a :: as = d :: r := by simpa [ha] using h
        exact (List.cons.injEq _ _ _ _ ▸ h2).1
      rw [← had]
      simpa using ha

theorem findIdx?_spec {α : Type} (p : α → Bool) :
    ∀ (l : List α) (k : Nat), l.findIdx? p = some k →
      ∃ x, l.get? k = some x ∧ p x = true := by
  intro l
  induction l with
  | nil => intro k h; simp [List.findIdx?_nil] at h
  | cons a as ih =>
    intro k h
    rw [List.findIdx?_cons] at h
    by_cases ha : p a
    · rw [if_pos ha] at h
      injection h with h0
      subst h0
      exact ⟨a, rfl, ha⟩
    · rw [if_neg ha, List.findIdx?_succ, Option.map_eq_some'] at h
      obtain ⟨k', hk', hkk⟩ := h
      subst hkk
      obtain ⟨x, hx, hpx⟩ := ih k' hk'
      exact ⟨x, by simpa using hx, hpx⟩

/-- A successful checksum walk finds every token in the word list. -/
theorem checkWalk_mem (wl : List (List Char)) :
    ∀ (toks : List (List Char)) (bits : List Bool), checkWalk wl toks = some bits →
      ∀ t ∈ toks, t ∈ wl := by
  intro toks
  induction toks with
  | nil => intro bits _ t ht; simp at ht
  | cons t0 ts ih =>
    intro bits h t ht
    simp only [checkWalk] at h
    cases hl : lookupBits wl t0 with
    | none => rw [hl] at h; exact absurd h (by simp)
    | some bs =>
      rw [hl] at h
      cases hw : checkWalk wl ts with
      | none => rw [hw] at h; exact absurd h (by simp)
      | some rest =>
        rcases List.mem_cons.mp ht with rfl | hmem
        · simp only [lookupBits] at hl
          by_cases hlen : 11 ≤ t.length
          · rw [if_pos hlen] at hl; exact absurd hl (by simp)
          · rw [if_neg hlen] at hl
            cases hf : wl.findIdx? (fun w => w == t) with
            | none => rw [hf] at hl; exact absurd hl (by simp)
            | some k =>
              obtain ⟨x, hx, hpx⟩ := findIdx?_spec _ wl k hf
              have hxt : x = t := by simpa using hpx
              subst hxt
              exact List.get?_mem hx
        · exact ih rest hw t hmem

theorem infix_split (run a b : List Char) (x : Char) (hrun : run <:+: a ++ x :: b)
    (hx : x ∉ run) : run <:+: a ∨ run <:+: b := by
  obtain ⟨p, q, h⟩ := hrun
  by_cases h1 : p.length + run.length ≤ a.length
  · left
    have htd := List.take_append_drop (p.length + run.length) a
    have h' : (p ++ run) ++ q =
        (a.take (p.length + run.length)) ++ ((a.drop (p.length + run.length)) ++ x :: b) := by
      rw [← List.append_assoc, htd, ← h]
    have hlen : (p ++ run).length = (a.take (p.length + run.length)).length := by
      simp [List.length_take]
      omega
    have hinj := List.append_inj h' hlen
    exact ⟨p, a.drop (p.length + run.length), by rw [hinj.1, htd]⟩
  · by_cases h2 : a.length + 1 ≤ p.length
    · right
      have htd := List.take_append_drop (a.length + 1) p
      have h' : (p.take (a.length + 1)) ++ ((p.drop (a.length + 1) ++ run) ++ q) =
          (a ++ [x]) ++ b := by
        rw [← List.append_assoc, ← List.append_assoc, htd, h, List.append_assoc]
        simp
      have hlen : (p.take (a.length + 1)).length = (a ++ [x]).length := by
        simp [List.length_take]
        omega
      have hinj := List.append_inj h' hlen
      exact ⟨p.drop (a.length + 1), q, hinj.2⟩
    · exfalso
      have hj : a.length - p.length < run.length := by omega
      have hrt := List.take_append_drop (a.length - p.length) run
      have h' : (p ++ run.take (a.length - p.length)) ++
          ((run.drop (a.length - p.length)) ++ q) = a ++ x :: b := by
        rw [List.append_assoc, ← List.append_assoc (run.take (a.length - p.length)), hrt, ← h,
          List.append_assoc]
      have hlen : (p ++ run.take (a.length - p.length)).length = a.length := by
        simp [List.length_take]
        omega
      have hinj := List.append_inj h' hlen
      cases hdj : run.drop (a.length - p.length) with
      | nil =>
        have := congrArg List.length hdj
        simp [List.length_drop] at this
        omega
      | cons y ys =>
        have hyx : y = x := by
          have h2 := hinj.2
          rw [hdj] at h2
          have h3 : y :: (ys ++ q) = x :: b := by simpa using h2
          exact (List.cons.injEq _ _ _ _ ▸ h3).1
        apply hx
        rw [← hyx]
        exact List.drop_subset _ run (by rw [hdj]; simp)

/-- A run of non-space characters inside a string is covered by a single
space-cut token at least as long. -/
theorem spTokens_long_token :
    ∀ (n : Nat) (s run : List Char), s.length ≤ n → run <:+: s → run ≠ [] →
      (∀ c ∈ run, ¬c = ' ') →
      ∃ u ∈ spTokens s, run.length ≤ u.length := by
  intro n
  induction n with
  | zero =>
    intro s run hs hinf hne _
    have hsnil : s = [] := List.eq_nil_of_length_eq_zero (Nat.le_zero.mp hs)
    subst hsnil
    exact absurd (List.eq_nil_of_infix_nil hinf) hne
  | succ n ih =>
    intro s run hs hinf hne hnsp
    cases s with
    | nil => exact absurd (List.eq_nil_of_infix_nil hinf) hne
    | cons c s0 =>
      have hsplit := List.takeWhile_append_dropWhile (fun d => !(d == ' ')) (c :: s0)
      cases hrr : (c :: s0).dropWhile (fun d => !(d == ' ')) with
      | nil =>
        refine ⟨(c :: s0).takeWhile (fun d => !(d == ' ')), ?_, ?_⟩
        · rw [spTokens_cons]
          simp
        · have h2 := hsplit
          rw [hrr, List.append_nil] at h2
          rw [h2]
          exact hinf.length_le
      | cons d r0 =>
        have hd : (fun d => !(d == ' ')) d = false := dropWhile_head_false _ (c :: s0) d r0 hrr
        have hdsp : d = ' ' := by simpa using hd
        have hst : c :: s0 = (c :: s0).takeWhile (fun d => !(d == ' ')) ++ ' ' :: r0 := by
          conv_lhs => rw [← hsplit]
          rw [hrr, hdsp]
        rw [hst] at hinf
        have hxmem : ' ' ∉ run := fun hmem => (hnsp ' ' hmem) rfl
        rcases infix_split run _ r0 ' ' hinf hxmem with h | h
        · refine ⟨(c :: s0).takeWhile (fun d => !(d == ' ')), ?_, h.length_le⟩
          rw [spTokens_cons]
          simp
        · have hlen0 : r0.length ≤ n := by
            have h1 : (d :: r0).length ≤ (c :: s0).length := by
              rw [← hrr]
              exact lengthDropWhileLe _ _
            simp only [List.length_cons] at h1 hs
            omega
          obtain ⟨u, hu, hul⟩ := ih r0 run hlen0 h hne hnsp
          refine ⟨u, ?_, hul⟩
          rw [spTokens_cons]
          right
          have hr0 : (((c :: s0).dropWhile (fun d => !(d == ' ')))).drop 1 = r0 := by
            rw [hrr]
            simp
          rw [hr0]
          exact hu

/-- Every `strtok` token is a nonempty infix of the string made of
non-separator characters. -/
theorem strtokTokens_shape (isSep : Char → Bool) :
    ∀ (n : Nat) (s : List Char), s.length ≤ n → ∀ t ∈ strtokTokens isSep s,
      t ≠ [] ∧ (∀ c ∈ t, isSep c = false) ∧ t <:+: s := by
  intro n
  induction n with
  | zero =>
    intro s hs t ht
    have hsnil : s = [] := List.eq_nil_of_length_eq_zero (Nat.le_zero.mp hs)
    subst hsnil
    simp [strtokTokens, strtokAux] at ht
  | succ n ih =>
    intro s hs t ht
    cases s with
    | nil => simp [strtokTokens, strtokAux] at ht
    | cons c s0 =>
      rw [strtokTokens_cons] at ht
      by_cases hc : isSep c
      · rw [if_pos hc] at ht
        obtain ⟨h1, h2, h3⟩ := ih s0 (by simpa using hs) t ht
        exact ⟨h1, h2, h3.trans (List.suffix_cons c s0).isInfix⟩
      · rw [if_neg hc] at ht
        rcases List.mem_cons.mp ht with rfl | hmem
        · refine ⟨by simp, ?_, ?_⟩
          · intro x hx
            rcases List.mem_cons.mp hx with rfl | hx'
            · simpa using hc
            · have := List.mem_takeWhile_imp hx'
              simpa using this
          · have hpre : c :: s0.takeWhile (fun d => !isSep d) <+: c :: s0 :=
              List.cons_prefix_cons.mpr ⟨rfl, List.takeWhile_prefix _⟩
            exact hpre.isInfix
        · obtain ⟨h1, h2, h3⟩ := ih (s0.dropWhile (fun d => !isSep d))
            (le_trans (lengthDropWhileLe _ _) (by simpa using hs)) t hmem
          refine ⟨h1, h2, h3.trans ?_⟩
          exact ((List.dropWhile_suffix _).trans (List.suffix_cons c s0)).isInfix

/-- C5: `wallet_mnemonic_check` returns an error on every input containing
a token (maximal run of non-separator characters, as cut by the code's own
`strtok(·, " ,")`) of 10 or more characters — provided every word of the
word list has at most 9 characters (the BIP39 English words have at most
8).  A 10-character token survives the `j >= sizeof(current_word)` guard
but cannot match any word; an 11-character token trips the guard. -/
theorem mnemonic_check_rejects_long_token (sha : List Nat → List Nat)
    (wl : List (List Char)) (mnemo : List Char)
    (hwl : ∀ w ∈ wl, w.length ≤ 9)
    (htok : ∃ t ∈ strtokTokens isSepSC mnemo, 10 ≤ t.length) :
    wallet_mnemonic_check sha wl mnemo = false := by
  obtain ⟨t, htmem, htlen⟩ := htok
  by_contra hcheck
  have hcheck' : wallet_mnemonic_check sha wl mnemo = true := by
    cases h : wallet_mnemonic_check sha wl mnemo
    · exact absurd h hcheck
    · rfl
  -- extract a successful walk
  simp only [wallet_mnemonic_check] at hcheck'
  by_cases hn : ¬(wallet_split_seed_count mnemo = 12 ∨ wallet_split_seed_count mnemo = 18 ∨
      wallet_split_seed_count mnemo = 24)
  · rw [if_pos hn] at hcheck'
    exact Bool.noConfusion hcheck'
  · rw [if_neg hn] at hcheck'
    cases hw : checkWalk wl (spTokens mnemo) with
    | none => rw [hw] at hcheck'; exact Bool.noConfusion hcheck'
    | some bits =>
      obtain ⟨h1, h2, h3⟩ := strtokTokens_shape isSepSC mnemo.length mnemo le_rfl t htmem
      have hrun : (t.take 10) <:+: mnemo := ((List.take_prefix 10 t).isInfix).trans h3
      have hrunlen : (t.take 10).length = 10 := by
        simp [List.length_take]
        omega
      have hrunne : t.take 10 ≠ [] := by
        intro he
        rw [he] at hrunlen
        simp at hrunlen
      have hrunsp : ∀ c ∈ t.take 10, ¬c = ' ' := by
        intro c hc hsp
        have := h2 c (List.take_subset 10 t hc)
        rw [hsp] at this
        simp [isSepSC] at this
      obtain ⟨u, humem, hul⟩ := spTokens_long_token mnemo.length mnemo (t.take 10)
        le_rfl hrun hrunne hrunsp
      have humemwl : u ∈ wl := checkWalk_mem wl (spTokens mnemo) bits hw u humem
      have := hwl u humemwl
      rw [hrunlen] at hul
      omega

theorem charOf_ne_sep (i : Nat) : ¬charOf i = ' ' ∧ ¬charOf i = ',' := by
  by_cases h : i < 26
  · interval_cases i <;> exact ⟨by decide, by decide⟩
  · obtain ⟨j, rfl⟩ : ∃ j, i = j + 26 := ⟨i - 26, by omega⟩
    have hz : charOf (j + 26) = 'z' := rfl
    rw [hz]
    exact ⟨by decide, by decide⟩

/-- The concrete word list satisfies every word-level hypothesis of the
mnemonic theorems. -/
theorem wlC_mem_props (w : List Char) (hw : w ∈ wlC) :
    w ≠ [] ∧ w.length ≤ 8 ∧ ∀ c ∈ w, ¬c = ' ' ∧ ¬c = ',' := by
  obtain ⟨k, _, rfl⟩ := List.mem_map.mp hw
  refine ⟨by simp [word3], by simp [word3], ?_⟩
  intro c hc
  simp only [word3, List.mem_cons, List.mem_singleton] at hc
  rcases hc with rfl | rfl | rfl | h
  · exact charOf_ne_sep _
  · exact charOf_ne_sep _
  · exact charOf_ne_sep _
  · simp at h

/-- Closed instance: a single 10-character token is rejected. -/
theorem mnemonic_check_rejects_long_token_witness :
    wallet_mnemonic_check shaC wlC (List.replicate 10 'a') = false :=
  mnemonic_check_rejects_long_token shaC wlC (List.replicate 10 'a')
    (fun w hw => le_trans (wlC_mem_props w hw).2.1 (by omega))
    ⟨List.replicate 10 'a', by decide, by decide⟩

/-! ## C6: commas are rejected by the checksum walk -/

/-- Every non-space character of a string lies in one of its space-cut
tokens. -/
theorem spTokens_cover :
    ∀ (n : Nat) (s : List Char) (c : Char), s.length ≤ n → c ∈ s → ¬c = ' ' →
      ∃ u ∈ spTokens s, c ∈ u := by
  intro n
  induction n with
  | zero =>
    intro s c hs hc _
    have hsnil : s = [] := List.eq_nil_of_length_eq_zero (Nat.le_zero.mp hs)
    subst hsnil
    simp at hc
  | succ n ih =>
    intro s c hs hc hcsp
    cases s with
    | nil => simp at hc
    | cons a s0 =>
      have hsplit := List.takeWhile_append_dropWhile (fun d => !(d == ' ')) (a :: s0)
      rw [← hsplit] at hc
      rcases List.mem_append.mp hc with hmem | hmem
      · refine ⟨(a :: s0).takeWhile (fun d => !(d == ' ')), ?_, hmem⟩
        rw [spTokens_cons]
        exact List.mem_cons_self _ _
      · cases hrr : (a :: s0).dropWhile (fun d => !(d == ' ')) with
        | nil => rw [hrr] at hmem; simp at hmem
        | cons d r0 =>
          have hdsp : d = ' ' := by
            simpa using dropWhile_head_false _ (a :: s0) d r0 hrr
          rw [hrr] at hmem
          rcases List.mem_cons.mp hmem with rfl | hmem0
          · exact absurd hdsp hcsp
          · have hlen0 : r0.length ≤ n := by
              have h1 : (d :: r0).length ≤ (a :: s0).length := by
                rw [← hrr]
                exact lengthDropWhileLe _ _
              simp only [List.length_cons] at h1 hs
              omega
            obtain ⟨u, hu, hcu⟩ := ih r0 c hlen0 hmem0 hcsp
            refine ⟨u, ?_, hcu⟩
            rw [spTokens_cons]
            right
            have hr0 : (((a :: s0).dropWhile (fun d => !(d == ' ')))).drop 1 = r0 := by
              rw [hrr]
              simp
            rw [hr0]
            exact hu

/-- C6 (amended): commas are *not* accepted as separators by
`wallet_mnemonic_check`: for every word list without commas in its words,
any input containing a comma is rejected — the `strtok(·, " ,")` of
`wallet_split_seed` only counts words, while the checksum walk cuts at
single spaces only, so a comma always ends up inside a looked-up token. -/
theorem mnemonic_check_rejects_commas (sha : List Nat → List Nat)
    (wl : List (List Char)) (mnemo : List Char)
    (hwl : ∀ w ∈ wl, ∀ c ∈ w, ¬c = ',')
    (hc : ',' ∈ mnemo) :
    wallet_mnemonic_check sha wl mnemo = false := by
  by_contra hcheck
  have hcheck' : wallet_mnemonic_check sha wl mnemo = true := by
    cases h : wallet_mnemonic_check sha wl mnemo
    · exact absurd h hcheck
    · rfl
  simp only [wallet_mnemonic_check] at hcheck'
  by_cases hn : ¬(wallet_split_seed_count mnemo = 12 ∨ wallet_split_seed_count mnemo = 18 ∨
      wallet_split_seed_count mnemo = 24)
  · rw [if_pos hn] at hcheck'
    exact Bool.noConfusion hcheck'
  · rw [if_neg hn] at hcheck'
    cases hw : checkWalk wl (spTokens mnemo) with
    | none => rw [hw] at hcheck'; exact Bool.noConfusion hcheck'
    | some bits =>
      obtain ⟨u, humem, hcu⟩ := spTokens_cover mnemo.length mnemo ',' le_rfl hc (by decide)
      have humemwl : u ∈ wl := checkWalk_mem wl (spTokens mnemo) bits hw u humem
      exact hwl u humemwl ',' hcu rfl

set_option maxRecDepth 4000 in
/-- C6 counterexample (closed): the space-separated rendering of the
twelve-word phrase passes `wallet_mnemonic_check` over the concrete word
list, while the comma-separated rendering of the same words fails. -/
theorem mnemonic_check_comma_counterexample :
    wallet_mnemonic_check shaC wlC mnemonic12 = true ∧
    wallet_mnemonic_check shaC wlC mnemonic12c = false := by
  decide

set_option maxRecDepth 4000 in
/-- Closed instance of the amended claim at the comma-separated phrase. -/
theorem mnemonic_check_rejects_commas_witness :
    wallet_mnemonic_check shaC wlC mnemonic12c = false :=
  mnemonic_check_rejects_commas shaC wlC mnemonic12c
    (fun w hw c hc => ((wlC_mem_props w hw).2.2 c hc).2) (by decide)

/-! ## C4: BIP39 round-trip — bit-level infrastructure -/

theorem bitsVal_append_bit (bs : List Bool) (b : Bool) :
    bitsVal (bs ++ [b]) = 2 * bitsVal bs + (if b then 1 else 0) := by
  simp [bitsVal, List.foldl_append]

theorem bitsVal_lt (bs : List Bool) : bitsVal bs < 2 ^ bs.length := by
  induction bs using List.reverseRecOn with
  | nil => simp [bitsVal]
  | append_singleton bs b ih =>
    rw [bitsVal_append_bit]
    simp only [List.length_append, List.length_cons, List.length_nil, pow_add]
    cases b <;> simp <;> omega

theorem bitsVal_testBit (bs : List Bool) :
    ∀ j, j < bs.length → (bitsVal bs).testBit (bs.length - 1 - j) = bs.getD j false := by
  induction bs using List.reverseRecOn with
  | nil => intro j hj; simp at hj
  | append_singleton bs b ih =>
    intro j hj
    rw [bitsVal_append_bit]
    simp only [List.length_append, List.length_cons, List.length_nil] at hj ⊢
    by_cases hjl : j < bs.length
    · have harith : bs.length + 1 - 1 - j = (bs.length - 1 - j) + 1 := by omega
      rw [harith, Nat.testBit_add_one]
      have hdiv : (2 * bitsVal bs + (if b then 1 else 0)) / 2 = bitsVal bs := by
        cases b <;> simp <;> omega
      rw [hdiv, ih j hjl, List.getD_append _ _ _ _ hjl]
    · have hje : j = bs.length := by omega
      subst hje
      have harith : bs.length + 1 - 1 - bs.length = 0 := by omega
      rw [harith, Nat.testBit_zero]
      have hgb : (bs ++ [b]).getD bs.length false = b := by
        rw [List.getD_append_right]
        · simp
        · exact le_refl _
      rw [hgb]
      cases b <;> simp <;> omega

/-- Map-over-range of `getD` is `take`. -/
theorem map_range_getD {α : Type} (l : List α) (d : α) :
    ∀ (L : Nat), L ≤ l.length → (List.range L).map (fun p => l.getD p d) = l.take L := by
  intro L
  induction L with
  | zero => intro _; simp
  | succ L ih =>
    intro hL
    rw [List.range_succ, List.map_append, ih (by omega), List.take_succ]
    have hx : l[L]? = some (l[L]) := List.getElem?_eq_getElem (by omega)
    simp [hx, List.getD_eq_getElem?_getD]

theorem natBits11_bitsVal (bs : List Bool) (h : bs.length = 11) :
    natBits11 (bitsVal bs) = bs := by
  have h1 : ∀ ki, ki < 11 → (bitsVal bs).testBit (10 - ki) = bs.getD ki false := by
    intro ki hki
    have := bitsVal_testBit bs ki (by omega)
    rw [h] at this
    simpa using this
  have h2 : natBits11 (bitsVal bs) = (List.range 11).map (fun ki => bs.getD ki false) := by
    simp only [natBits11]
    refine List.map_congr_left ?_
    intro ki hki
    exact h1 ki (List.mem_range.mp hki)
  rw [h2, map_range_getD bs false 11 (by omega), List.take_of_length_le (by omega)]

theorem mnemoIdx_eq_bitsVal (B : List Nat) (i : Nat) :
    mnemoIdx B i = bitsVal ((List.range 11).map (fun j => testBitBE B (i * 11 + j))) := by
  simp [mnemoIdx, bitsVal, List.foldl_map]

theorem mnemoIdx_lt (B : List Nat) (i : Nat) : mnemoIdx B i < 2048 := by
  rw [mnemoIdx_eq_bitsVal]
  have := bitsVal_lt ((List.range 11).map (fun j => testBitBE B (i * 11 + j)))
  simpa using this

theorem natBits11_mnemoIdx (B : List Nat) (i : Nat) :
    natBits11 (mnemoIdx B i) = (List.range 11).map (fun j => testBitBE B (i * 11 + j)) := by
  rw [mnemoIdx_eq_bitsVal, natBits11_bitsVal _ (by simp)]

theorem length_byteBits (b : Nat) : (byteBits b).length = 8 := by
  simp [byteBits]

theorem length_bytesToBits (B : List Nat) : (bytesToBits B).length = 8 * B.length := by
  induction B with
  | nil => rfl
  | cons b B ih =>
    show (byteBits b ++ bytesToBits B).length = 8 * (b :: B).length
    rw [List.length_append, length_byteBits, ih, List.length_cons]
    ring

theorem byteBits_getD (b : Nat) (pos : Nat) (h : pos < 8) :
    (byteBits b).getD pos false = b.testBit (7 - pos) := by
  interval_cases pos <;> rfl

theorem bytesToBits_getD (B : List Nat) :
    ∀ (pos : Nat), pos < 8 * B.length → (bytesToBits B).getD pos false = testBitBE B pos := by
  induction B with
  | nil => intro pos h; simp at h
  | cons b B ih =>
    intro pos h
    simp only [bytesToBits, List.map_cons, List.flatten_cons]
    by_cases hp : pos < 8
    · rw [List.getD_append _ _ _ _ (by rw [length_byteBits]; omega)]
      rw [byteBits_getD b pos hp]
      simp only [testBitBE]
      have h1 : pos / 8 = 0 := by omega
      have h2 : pos % 8 = pos := by omega
      rw [h1, h2]
      rfl
    · rw [List.getD_append_right]
      · rw [length_byteBits]
        have hih := ih (pos - 8) (by simp at h; omega)
        simp only [bytesToBits] at hih
        rw [hih]
        simp only [testBitBE]
        have h1 : (pos - 8) / 8 = pos / 8 - 1 := by omega
        have h2 : (pos - 8) % 8 = pos % 8 := by omega
        have h3 : 0 < pos / 8 := by omega
        rw [h1, h2]
        have h4 : (b :: B).getD (pos / 8) 0 = B.getD (pos / 8 - 1) 0 := by
          cases hd : pos / 8 with
          | zero => omega
          | succ k => simp [List.getD_cons_succ]
        rw [h4]
      · rw [length_byteBits]
        omega

theorem range_map_testBit (B : List Nat) (L : Nat) (h : L ≤ 8 * B.length) :
    (List.range L).map (fun p => testBitBE B p) = (bytesToBits B).take L := by
  rw [← map_range_getD (bytesToBits B) false L (by rw [length_bytesToBits]; omega)]
  refine List.map_congr_left ?_
  intro p hp
  exact (bytesToBits_getD B p (by have := List.mem_range.mp hp; omega)).symm

theorem flatten_range_blocks (g : Nat → Bool) :
    ∀ (mlen : Nat),
      ((List.range mlen).map (fun i => (List.range 11).map (fun j => g (i * 11 + j)))).flatten
        = (List.range (mlen * 11)).map g := by
  intro mlen
  induction mlen with
  | zero => rfl
  | succ mlen ih =>
    rw [List.range_succ mlen, List.map_append, List.flatten_append, ih]
    have hrange : List.range ((mlen + 1) * 11) =
        List.range (mlen * 11) ++ (List.range 11).map (fun x => mlen * 11 + x) := by
      have h1 : (mlen + 1) * 11 = mlen * 11 + 11 := by ring
      rw [h1]
      exact List.range_add (mlen * 11) 11
    rw [hrange, List.map_append, List.map_map]
    simp [Function.comp]

theorem bytesOfBitsAux_fuel :
    ∀ (f : Nat) (bs : List Bool) (g : Nat), bs.length ≤ f → bs.length ≤ g →
      bytesOfBitsAux f bs = bytesOfBitsAux g bs := by
  intro f
  induction f with
  | zero =>
    intro bs g hf _
    have hnil : bs = [] := List.eq_nil_of_length_eq_zero (Nat.le_zero.mp hf)
    subst hnil
    cases g <;> rfl
  | succ f ih =>
    intro bs g hf hg
    cases bs with
    | nil => cases g <;> rfl
    | cons b bs' =>
      cases g with
      | zero => simp at hg
      | succ g' =>
        simp only [bytesOfBitsAux]
        have hd : ((b :: bs').drop 8).length ≤ bs'.length := by
          rw [List.length_drop]
          simp only [List.length_cons]
          omega
        rw [ih _ g' (le_trans hd (by simpa using hf)) (le_trans hd (by simpa using hg))]

theorem bytesOfBits_chunk (xs ys : List Bool) (h : xs.length = 8) :
    bytesOfBits (xs ++ ys) = byteOfBits xs :: bytesOfBits ys := by
  cases xs with
  | nil => simp at h
  | cons x xs' =>
    simp only [bytesOfBits, List.cons_append, List.length_append, List.length_cons]
    simp only [List.length_cons] at h
    simp only [bytesOfBitsAux]
    have htake : (x :: (xs' ++ ys)).take 8 = x :: xs' := by
      have : (x :: xs').length ≤ 8 := by simp; omega
      rw [show x :: (xs' ++ ys) = (x :: xs') ++ ys from rfl]
      rw [List.take_append_eq_append_take, List.take_of_length_le this]
      simp [h]
    have hdrop : (x :: (xs' ++ ys)).drop 8 = ys := by
      rw [show x :: (xs' ++ ys) = (x :: xs') ++ ys from rfl]
      rw [List.drop_append_eq_append_drop, List.drop_of_length_le (by simp; omega)]
      simp [h]
    rw [htake, hdrop]
    refine congrArg _ (bytesOfBitsAux_fuel _ _ _ ?_ le_rfl)
    omega

theorem bytesOfBits_small (bs : List Bool) (h0 : bs ≠ []) (h8 : bs.length ≤ 8) :
    bytesOfBits bs = [byteOfBits bs] := by
  cases bs with
  | nil => exact absurd rfl h0
  | cons b bs' =>
    simp only [bytesOfBits, List.length_cons, bytesOfBitsAux]
    rw [List.take_of_length_le (by simpa using h8), List.drop_of_length_le (by simpa using h8)]
    have : bytesOfBitsAux bs'.length [] = [] := by cases bs'.length <;> rfl
    rw [this]

set_option maxRecDepth 4000 in
theorem byteOfBits_byteBits : ∀ b, b < 256 → byteOfBits (byteBits b) = b := by decide

theorem bytesOfBits_bytesToBits (B : List Nat) (hB : ∀ b ∈ B, b < 256) :
    bytesOfBits (bytesToBits B) = B := by
  induction B with
  | nil => rfl
  | cons b B ih =>
    have hstep : bytesToBits (b :: B) = byteBits b ++ bytesToBits B := rfl
    rw [hstep, bytesOfBits_chunk _ _ (length_byteBits b),
      byteOfBits_byteBits b (hB b (by simp)), ih (fun x hx => hB x (by simp [hx]))]

/-- Packing a strict prefix of a byte stream: full bytes re-emerge, the
final partial byte keeps its top `r` bits. -/
theorem bytesOfBits_take :
    ∀ (B : List Nat) (len r : Nat), (∀ b ∈ B, b < 256) → B.length = len + 1 →
      0 < r → r < 8 →
      bytesOfBits ((bytesToBits B).take (8 * len + r)) =
        B.take len ++ [byteOfBits ((byteBits (B.getD len 0)).take r)] := by
  intro B
  induction B with
  | nil => intro len r _ h _ _; simp at h
  | cons b B ih =>
    intro len r hB hlen hr0 hr8
    cases len with
    | zero =>
      have hBnil : B = [] := by
        have h1 := congrArg Nat.pred (by simpa using hlen : B.length + 1 = 1)
        exact List.eq_nil_of_length_eq_zero (by simpa using h1)
      subst hBnil
      have hstream : bytesToBits [b] = byteBits b := by
        simp [bytesToBits]
      rw [hstream]
      have htake : (byteBits b).take (8 * 0 + r) = (byteBits b).take r := by
        norm_num
      rw [htake]
      have hne : (byteBits b).take r ≠ [] := by
        refine List.ne_nil_of_length_pos ?_
        rw [List.length_take, length_byteBits]
        omega
      have hle : ((byteBits b).take r).length ≤ 8 := by
        rw [List.length_take, length_byteBits]
        omega
      rw [bytesOfBits_small _ hne hle]
      simp
    | succ len =>
      have hBlen : B.length = len + 1 := by simpa using hlen
      have hstep : bytesToBits (b :: B) = byteBits b ++ bytesToBits B := rfl
      rw [hstep]
      have htake : (byteBits b ++ bytesToBits B).take (8 * (len + 1) + r) =
          byteBits b ++ (bytesToBits B).take (8 * len + r) := by
        rw [List.take_append_eq_append_take,
          List.take_of_length_le (by rw [length_byteBits]; omega)]
        rw [length_byteBits]
        have harith : 8 * (len + 1) + r - 8 = 8 * len + r := by omega
        rw [harith]
      rw [htake, bytesOfBits_chunk _ _ (length_byteBits b),
        byteOfBits_byteBits b (hB b (by simp)),
        ih len r (fun x hx => hB x (by simp [hx])) hBlen hr0 hr8]
      simp [List.getD_cons_succ]

set_option maxRecDepth 4000 in
theorem byteOfBits_take4_mask : ∀ b, b < 256 →
    byteOfBits ((byteBits b).take 4) &&& 240 = b &&& 240 := by decide

set_option maxRecDepth 4000 in
theorem byteOfBits_take6_mask : ∀ b, b < 256 →
    byteOfBits ((byteBits b).take 6) &&& 252 = b &&& 252 := by decide

theorem get?_getD (l : List (List Char)) (k : Nat) (h : k < l.length) :
    l.get? k = some (l.getD k []) := by
  have hx : l[k]? = some (l[k]) := List.getElem?_eq_getElem h
  rw [List.get?_eq_getElem?, hx]
  simp [List.getD_eq_getElem?_getD, hx]

theorem findIdx?_of_nodup (wl : List (List Char)) :
    ∀ (i : Nat) (x : List Char), wl.Nodup → wl.get? i = some x →
      wl.findIdx? (fun y => y == x) = some i := by
  induction wl with
  | nil => intro i x _ h; simp at h
  | cons a as ih =>
    intro i x hnd hget
    cases i with
    | zero =>
      have hax : a = x := by simpa using hget
      subst hax
      rw [List.findIdx?_cons]
      simp
    | succ i =>
      have hget' : as.get? i = some x := by simpa using hget
      have hxmem : x ∈ as := List.get?_mem hget'
      have hne : ¬(a == x) = true := by
        have hnotmem : a ∉ as := (List.nodup_cons.mp hnd).1
        simp only [beq_iff_eq]
        intro he
        exact hnotmem (he ▸ hxmem)
      rw [List.findIdx?_cons, if_neg hne, List.findIdx?_succ,
        ih i x (List.nodup_cons.mp hnd).2 hget']
      rfl

theorem checkWalk_map_getD (wl : List (List Char)) (hnd : wl.Nodup)
    (hwords : ∀ w ∈ wl, w.length ≤ 8) :
    ∀ (ks : List Nat), (∀ k ∈ ks, k < wl.length) →
      checkWalk wl (ks.map (fun k => wl.getD k [])) =
        some ((ks.map (fun k => natBits11 k)).flatten) := by
  intro ks
  induction ks with
  | nil => intro _; rfl
  | cons k ks ih =>
    intro hk
    have hklt : k < wl.length := hk k (by simp)
    have hget : wl.get? k = some (wl.getD k []) := get?_getD wl k hklt
    have hmem : wl.getD k [] ∈ wl := List.get?_mem hget
    have hlook : lookupBits wl (wl.getD k []) = some (natBits11 k) := by
      have hlen : ¬(11 ≤ (wl.getD k []).length) := by
        have := (hwords _ hmem)
        omega
      rw [lookupBits, if_neg hlen, findIdx?_of_nodup wl k _ hnd hget]
    simp only [List.map_cons, checkWalk, hlook, ih (fun x hx => hk x (by simp [hx]))]
    simp [List.flatten_cons]

theorem joinSep_length_le (sep : Char) :
    ∀ (ws : List (List Char)), (∀ w ∈ ws, w.length ≤ 8) →
      (joinSep sep ws).length ≤ 9 * ws.length := by
  intro ws
  induction ws with
  | nil => intro _; simp [joinSep]
  | cons w ws ih =>
    intro hw
    have h1 : w.length ≤ 8 := hw w (by simp)
    have h2 := ih (fun x hx => hw x (by simp [hx]))
    cases ws with
    | nil =>
      simp only [joinSep, List.length_cons, List.length_nil]
      omega
    | cons w2 ws2 =>
      have hjoin : joinSep sep (w :: w2 :: ws2) = w ++ sep :: joinSep sep (w2 :: ws2) := rfl
      rw [hjoin]
      simp only [List.length_append, List.length_cons] at h2 ⊢
      omega

theorem wallet_mnemonic_check_eq (sha : List Nat → List Nat) (wl : List (List Char))
    (mnemo : List Char) :
    wallet_mnemonic_check sha wl mnemo =
      (if ¬(wallet_split_seed_count mnemo = 12 ∨ wallet_split_seed_count mnemo = 18 ∨
          wallet_split_seed_count mnemo = 24) then false
       else
        match checkWalk wl (spTokens mnemo) with
        | none => false
        | some bits =>
          if bits.length ≠ wallet_split_seed_count mnemo * 11 then false
          else
            if wallet_split_seed_count mnemo = 12 then
              (((sha ((padTo 33 (bytesOfBits bits)).take
                  (wallet_split_seed_count mnemo * 4 / 3))).headD 0) &&& 0xF0) ==
                (((padTo 33 (bytesOfBits bits)).getD
                  (wallet_split_seed_count mnemo * 4 / 3) 0) &&& 0xF0)
            else if wallet_split_seed_count mnemo = 18 then
              (((sha ((padTo 33 (bytesOfBits bits)).take
                  (wallet_split_seed_count mnemo * 4 / 3))).headD 0) &&& 0xFC) ==
                (((padTo 33 (bytesOfBits bits)).getD
                  (wallet_split_seed_count mnemo * 4 / 3) 0) &&& 0xFC)
            else
              ((sha ((padTo 33 (bytesOfBits bits)).take
                  (wallet_split_seed_count mnemo * 4 / 3))).headD 0) ==
                ((padTo 33 (bytesOfBits bits)).getD
                  (wallet_split_seed_count mnemo * 4 / 3) 0)) := rfl

theorem roundtrip_case16 (sha : List Nat → List Nat) (wl : List (List Char)) (data : List Nat)
    (hsha : ∀ x, (sha x).headD 0 < 256)
    (hwlLen : wl.length = 2048) (hnd : wl.Nodup)
    (hw : ∀ w ∈ wl, w ≠ [] ∧ w.length ≤ 8 ∧ (∀ c ∈ w, ¬c = ' ' ∧ ¬c = ','))
    (hdata : ∀ b ∈ data, b < 256) (hlen16 : data.length = 16) :
    wallet_mnemonic_check sha wl
      (joinWords ((List.range 12).map
        (fun i => wl.getD (mnemoIdx (fromDataBits sha data) i) []))) = true := by
  have hBlen : (fromDataBits sha data).length = 17 := by
    simp [fromDataBits, hlen16]
  have hBbytes : ∀ b ∈ fromDataBits sha data, b < 256 := by
    intro b hb
    rcases List.mem_append.mp hb with hb | hb
    · exact hdata b hb
    · rw [List.mem_singleton.mp hb]
      exact hsha data
  have hkslt : ∀ k ∈ (List.range 12).map (fun i => mnemoIdx (fromDataBits sha data) i),
      k < wl.length := by
    intro k hk
    obtain ⟨i, _, rfl⟩ := List.mem_map.mp hk
    rw [hwlLen]
    exact mnemoIdx_lt _ i
  have hwordsmap : (List.range 12).map (fun i => wl.getD (mnemoIdx (fromDataBits sha data) i) [])
      = ((List.range 12).map (fun i => mnemoIdx (fromDataBits sha data) i)).map
          (fun k => wl.getD k []) := by
    rw [List.map_map]
    rfl
  have hmemw : ∀ w_1 ∈ (List.range 12).map
      (fun i => wl.getD (mnemoIdx (fromDataBits sha data) i) []), w_1 ∈ wl := by
    intro w1 hw1
    obtain ⟨i, _, rfl⟩ := List.mem_map.mp hw1
    exact List.get?_mem (get?_getD wl _ (by rw [hwlLen]; exact mnemoIdx_lt _ i))
  have hne : ∀ w_1 ∈ (List.range 12).map
      (fun i => wl.getD (mnemoIdx (fromDataBits sha data) i) []), w_1 ≠ [] :=
    fun w1 hw1 => (hw w1 (hmemw w1 hw1)).1
  have hsp : ∀ w_1 ∈ (List.range 12).map
      (fun i => wl.getD (mnemoIdx (fromDataBits sha data) i) []),
      ∀ c ∈ w_1, (c == ' ') = false := by
    intro w1 hw1 c hc
    have := ((hw w1 (hmemw w1 hw1)).2.2 c hc).1
    simpa using this
  have hsepf : ∀ w_1 ∈ (List.range 12).map
      (fun i => wl.getD (mnemoIdx (fromDataBits sha data) i) []),
      ∀ c ∈ w_1, isSepSC c = false := by
    intro w1 hw1 c hc
    have h1 := ((hw w1 (hmemw w1 hw1)).2.2 c hc).1
    have h2 := ((hw w1 (hmemw w1 hw1)).2.2 c hc).2
    simp [isSepSC, h1, h2]
  have hlen8 : ∀ w_1 ∈ (List.range 12).map
      (fun i => wl.getD (mnemoIdx (fromDataBits sha data) i) []), w_1.length ≤ 8 :=
    fun w1 hw1 => (hw w1 (hmemw w1 hw1)).2.1
  have hmlen : (joinWords ((List.range 12).map
      (fun i => wl.getD (mnemoIdx (fromDataBits sha data) i) []))).length ≤ 108 := by
    have := joinSep_length_le ' ' _ hlen8
    simpa [joinWords] using this
  have hcount : wallet_split_seed_count (joinWords ((List.range 12).map
      (fun i => wl.getD (mnemoIdx (fromDataBits sha data) i) []))) = 12 := by
    rw [wallet_split_seed_count, List.take_of_length_le
      (by rw [show MNEMONIC_BUF_LEN - 1 = 250 from rfl]; omega)]
    rw [show (joinWords ((List.range 12).map
      (fun i => wl.getD (mnemoIdx (fromDataBits sha data) i) []))) = joinSep ' '
      ((List.range 12).map (fun i => wl.getD (mnemoIdx (fromDataBits sha data) i) []))
      from rfl]
    rw [strtokTokens_joinSep isSepSC ' ' (by decide) _ hsepf]
    rw [List.filter_eq_self.mpr (fun a ha => by simpa [List.isEmpty_iff] using hne a ha)]
    simp
  have hwalk : checkWalk wl (spTokens (joinWords ((List.range 12).map
      (fun i => wl.getD (mnemoIdx (fromDataBits sha data) i) [])))) =
      some ((bytesToBits (fromDataBits sha data)).take 132) := by
    rw [show (joinWords ((List.range 12).map
      (fun i => wl.getD (mnemoIdx (fromDataBits sha data) i) []))) = joinSep ' '
      ((List.range 12).map (fun i => wl.getD (mnemoIdx (fromDataBits sha data) i) []))
      from rfl]
    rw [spTokens_joinSep _ hne hsp, hwordsmap,
      checkWalk_map_getD wl hnd (fun w1 hw1 => (hw w1 hw1).2.1) _ hkslt]
    congr 1
    have hnb : ((List.range 12).map (fun i => mnemoIdx (fromDataBits sha data) i)).map
        (fun k => natBits11 k) = (List.range 12).map
        (fun i => (List.range 11).map
          (fun j => testBitBE (fromDataBits sha data) (i * 11 + j))) := by
      rw [List.map_map]
      refine List.map_congr_left ?_
      intro i _
      exact natBits11_mnemoIdx _ i
    rw [hnb, flatten_range_blocks (fun p => testBitBE (fromDataBits sha data) p) 12]
    rw [show (12 : Nat) * 11 = 132 from rfl]
    exact range_map_testBit _ 132 (by rw [hBlen]; norm_num)
  have hbuf : bytesOfBits ((bytesToBits (fromDataBits sha data)).take 132) =
      data ++ [byteOfBits ((byteBits ((sha data).headD 0)).take 4)] := by
    have h132 : (132 : Nat) = 8 * 16 + 4 := by norm_num
    rw [h132, bytesOfBits_take (fromDataBits sha data) 16 4 hBbytes (by rw [hBlen])
      (by norm_num) (by norm_num)]
    have ht : (fromDataBits sha data).take 16 = data := by
      rw [fromDataBits, ← hlen16, List.take_left]
    have hg : (fromDataBits sha data).getD 16 0 = (sha data).headD 0 := by
      rw [fromDataBits, List.getD_append_right]
      · rw [hlen16]
        simp
      · rw [hlen16]
    rw [ht, hg]
  have htk : (padTo 33 (data ++ [byteOfBits ((byteBits ((sha data).headD 0)).take 4)])).take 16
      = data := by
    rw [padTo, List.append_assoc, ← hlen16, List.take_left]
  have hgd : (padTo 33 (data ++ [byteOfBits ((byteBits ((sha data).headD 0)).take 4)])).getD
      16 0 = byteOfBits ((byteBits ((sha data).headD 0)).take 4) := by
    rw [padTo, List.append_assoc, List.getD_append_right]
    · rw [hlen16]
      simp
    · rw [hlen16]
  rw [wallet_mnemonic_check_eq]
  simp only [hcount, hwalk]
  rw [if_neg (show ¬¬(True ∨ (12:Nat) = 18 ∨ (12:Nat) = 24) from by simp)]
  rw [if_neg (show ¬((List.take 132 (bytesToBits (fromDataBits sha data))).length ≠ 12 * 11)
    from by rw [List.length_take, length_bytesToBits, hBlen]; norm_num)]
  rw [if_pos trivial]
  have heb : (12 : Nat) * 4 / 3 = 16 := by norm_num
  rw [heb, hbuf, htk, hgd]
  rw [byteOfBits_take4_mask _ (hsha data)]
  simp

theorem roundtrip_case24 (sha : List Nat → List Nat) (wl : List (List Char)) (data : List Nat)
    (hsha : ∀ x, (sha x).headD 0 < 256)
    (hwlLen : wl.length = 2048) (hnd : wl.Nodup)
    (hw : ∀ w ∈ wl, w ≠ [] ∧ w.length ≤ 8 ∧ (∀ c ∈ w, ¬c = ' ' ∧ ¬c = ','))
    (hdata : ∀ b ∈ data, b < 256) (hlen24 : data.length = 24) :
    wallet_mnemonic_check sha wl
      (joinWords ((List.range 18).map
        (fun i => wl.getD (mnemoIdx (fromDataBits sha data) i) []))) = true := by
  have hBlen : (fromDataBits sha data).length = 25 := by
    simp [fromDataBits, hlen24]
  have hBbytes : ∀ b ∈ fromDataBits sha data, b < 256 := by
    intro b hb
    rcases List.mem_append.mp hb with hb | hb
    · exact hdata b hb
    · rw [List.mem_singleton.mp hb]
      exact hsha data
  have hkslt : ∀ k ∈ (List.range 18).map (fun i => mnemoIdx (fromDataBits sha data) i),
      k < wl.length := by
    intro k hk
    obtain ⟨i, _, rfl⟩ := List.mem_map.mp hk
    rw [hwlLen]
    exact mnemoIdx_lt _ i
  have hwordsmap : (List.range 18).map (fun i => wl.getD (mnemoIdx (fromDataBits sha data) i) [])
      = ((List.range 18).map (fun i => mnemoIdx (fromDataBits sha data) i)).map
          (fun k => wl.getD k []) := by
    rw [List.map_map]
    rfl
  have hmemw : ∀ w_1 ∈ (List.range 18).map
      (fun i => wl.getD (mnemoIdx (fromDataBits sha data) i) []), w_1 ∈ wl := by
    intro w1 hw1
    obtain ⟨i, _, rfl⟩ := List.mem_map.mp hw1
    exact List.get?_mem (get?_getD wl _ (by rw [hwlLen]; exact mnemoIdx_lt _ i))
  have hne : ∀ w_1 ∈ (List.range 18).map
      (fun i => wl.getD (mnemoIdx (fromDataBits sha data) i) []), w_1 ≠ [] :=
    fun w1 hw1 => (hw w1 (hmemw w1 hw1)).1
  have hsp : ∀ w_1 ∈ (List.range 18).map
      (fun i => wl.getD (mnemoIdx (fromDataBits sha data) i) []),
      ∀ c ∈ w_1, (c == ' ') = false := by
    intro w1 hw1 c hc
    have := ((hw w1 (hmemw w1 hw1)).2.2 c hc).1
    simpa using this
  have hsepf : ∀ w_1 ∈ (List.range 18).map
      (fun i => wl.getD (mnemoIdx (fromDataBits sha data) i) []),
      ∀ c ∈ w_1, isSepSC c = false := by
    intro w1 hw1 c hc
    have h1 := ((hw w1 (hmemw w1 hw1)).2.2 c hc).1
    have h2 := ((hw w1 (hmemw w1 hw1)).2.2 c hc).2
    simp [isSepSC, h1, h2]
  have hlen8 : ∀ w_1 ∈ (List.range 18).map
      (fun i => wl.getD (mnemoIdx (fromDataBits sha data) i) []), w_1.length ≤ 8 :=
    fun w1 hw1 => (hw w1 (hmemw w1 hw1)).2.1
  have hmlen : (joinWords ((List.range 18).map
      (fun i => wl.getD (mnemoIdx (fromDataBits sha data) i) []))).length ≤ 162 := by
    have := joinSep_length_le ' ' _ hlen8
    simpa [joinWords] using this
  have hcount : wallet_split_seed_count (joinWords ((List.range 18).map
      (fun i => wl.getD (mnemoIdx (fromDataBits sha data) i) []))) = 18 := by
    rw [wallet_split_seed_count, List.take_of_length_le
      (by rw [show MNEMONIC_BUF_LEN - 1 = 250 from rfl]; omega)]
    rw [show (joinWords ((List.range 18).map
      (fun i => wl.getD (mnemoIdx (fromDataBits sha data) i) []))) = joinSep ' '
      ((List.range 18).map (fun i => wl.getD (mnemoIdx (fromDataBits sha data) i) []))
      from rfl]
    rw [strtokTokens_joinSep isSepSC ' ' (by decide) _ hsepf]
    rw [List.filter_eq_self.mpr (fun a ha => by simpa [List.isEmpty_iff] using hne a ha)]
    simp
  have hwalk : checkWalk wl (spTokens (joinWords ((List.range 18).map
      (fun i => wl.getD (mnemoIdx (fromDataBits sha data) i) [])))) =
      some ((bytesToBits (fromDataBits sha data)).take 198) := by
    rw [show (joinWords ((List.range 18).map
      (fun i => wl.getD (mnemoIdx (fromDataBits sha data) i) []))) = joinSep ' '
      ((List.range 18).map (fun i => wl.getD (mnemoIdx (fromDataBits sha data) i) []))
      from rfl]
    rw [spTokens_joinSep _ hne hsp, hwordsmap,
      checkWalk_map_getD wl hnd (fun w1 hw1 => (hw w1 hw1).2.1) _ hkslt]
    congr 1
    have hnb : ((List.range 18).map (fun i => mnemoIdx (fromDataBits sha data) i)).map
        (fun k => natBits11 k) = (List.range 18).map
        (fun i => (List.range 11).map
          (fun j => testBitBE (fromDataBits sha data) (i * 11 + j))) := by
      rw [List.map_map]
      refine List.map_congr_left ?_
      intro i _
      exact natBits11_mnemoIdx _ i
    rw [hnb, flatten_range_blocks (fun p => testBitBE (fromDataBits sha data) p) 18]
    rw [show (18 : Nat) * 11 = 198 from rfl]
    exact range_map_testBit _ 198 (by rw [hBlen]; norm_num)
  have hbuf : bytesOfBits ((bytesToBits (fromDataBits sha data)).take 198) =
      data ++ [byteOfBits ((byteBits ((sha data).headD 0)).take 6)] := by
    have h198 : (198 : Nat) = 8 * 24 + 6 := by norm_num
    rw [h198, bytesOfBits_take (fromDataBits sha data) 24 6 hBbytes (by rw [hBlen])
      (by norm_num) (by norm_num)]
    have ht : (fromDataBits sha data).take 24 = data := by
      rw [fromDataBits, ← hlen24, List.take_left]
    have hg : (fromDataBits sha data).getD 24 0 = (sha data).headD 0 := by
      rw [fromDataBits, List.getD_append_right]
      · rw [hlen24]
        simp
      · rw [hlen24]
    rw [ht, hg]
  have htk : (padTo 33 (data ++ [byteOfBits ((byteBits ((sha data).headD 0)).take 6)])).take 24
      = data := by
    rw [padTo, List.append_assoc, ← hlen24, List.take_left]
  have hgd : (padTo 33 (data ++ [byteOfBits ((byteBits ((sha data).headD 0)).take 6)])).getD
      24 0 = byteOfBits ((byteBits ((sha data).headD 0)).take 6) := by
    rw [padTo, List.append_assoc, List.getD_append_right]
    · rw [hlen24]
      simp
    · rw [hlen24]
  rw [wallet_mnemonic_check_eq]
  simp only [hcount, hwalk]
  rw [if_neg (show ¬¬((18 : Nat) = 12 ∨ True ∨ (18 : Nat) = 24) from by simp)]
  rw [if_neg (show ¬((List.take 198 (bytesToBits (fromDataBits sha data))).length ≠ 18 * 11)
    from by rw [List.length_take, length_bytesToBits, hBlen]; norm_num)]
  rw [if_neg (show ¬((18 : Nat) = 12) from by norm_num)]
  rw [if_pos trivial]
  have heb : (18 : Nat) * 4 / 3 = 24 := by norm_num
  rw [heb, hbuf, htk, hgd]
  rw [byteOfBits_take6_mask _ (hsha data)]
  simp

theorem roundtrip_case32 (sha : List Nat → List Nat) (wl : List (List Char)) (data : List Nat)
    (hsha : ∀ x, (sha x).headD 0 < 256)
    (hwlLen : wl.length = 2048) (hnd : wl.Nodup)
    (hw : ∀ w ∈ wl, w ≠ [] ∧ w.length ≤ 8 ∧ (∀ c ∈ w, ¬c = ' ' ∧ ¬c = ','))
    (hdata : ∀ b ∈ data, b < 256) (hlen32 : data.length = 32) :
    wallet_mnemonic_check sha wl
      (joinWords ((List.range 24).map
        (fun i => wl.getD (mnemoIdx (fromDataBits sha data) i) []))) = true := by
  have hBlen : (fromDataBits sha data).length = 33 := by
    simp [fromDataBits, hlen32]
  have hBbytes : ∀ b ∈ fromDataBits sha data, b < 256 := by
    intro b hb
    rcases List.mem_append.mp hb with hb | hb
    · exact hdata b hb
    · rw [List.mem_singleton.mp hb]
      exact hsha data
  have hkslt : ∀ k ∈ (List.range 24).map (fun i => mnemoIdx (fromDataBits sha data) i),
      k < wl.length := by
    intro k hk
    obtain ⟨i, _, rfl⟩ := List.mem_map.mp hk
    rw [hwlLen]
    exact mnemoIdx_lt _ i
  have hwordsmap : (List.range 24).map (fun i => wl.getD (mnemoIdx (fromDataBits sha data) i) [])
      = ((List.range 24).map (fun i => mnemoIdx (fromDataBits sha data) i)).map
          (fun k => wl.getD k []) := by
    rw [List.map_map]
    rfl
  have hmemw : ∀ w_1 ∈ (List.range 24).map
      (fun i => wl.getD (mnemoIdx (fromDataBits sha data) i) []), w_1 ∈ wl := by
    intro w1 hw1
    obtain ⟨i, _, rfl⟩ := List.mem_map.mp hw1
    exact List.get?_mem (get?_getD wl _ (by rw [hwlLen]; exact mnemoIdx_lt _ i))
  have hne : ∀ w_1 ∈ (List.range 24).map
      (fun i => wl.getD (mnemoIdx (fromDataBits sha data) i) []), w_1 ≠ [] :=
    fun w1 hw1 => (hw w1 (hmemw w1 hw1)).1
  have hsp : ∀ w_1 ∈ (List.range 24).map
      (fun i => wl.getD (mnemoIdx (fromDataBits sha data) i) []),
      ∀ c ∈ w_1, (c == ' ') = false := by
    intro w1 hw1 c hc
    have := ((hw w1 (hmemw w1 hw1)).2.2 c hc).1
    simpa using this
  have hsepf : ∀ w_1 ∈ (List.range 24).map
      (fun i => wl.getD (mnemoIdx (fromDataBits sha data) i) []),
      ∀ c ∈ w_1, isSepSC c = false := by
    intro w1 hw1 c hc
    have h1 := ((hw w1 (hmemw w1 hw1)).2.2 c hc).1
    have h2 := ((hw w1 (hmemw w1 hw1)).2.2 c hc).2
    simp [isSepSC, h1, h2]
  have hlen8 : ∀ w_1 ∈ (List.range 24).map
      (fun i => wl.getD (mnemoIdx (fromDataBits sha data) i) []), w_1.length ≤ 8 :=
    fun w1 hw1 => (hw w1 (hmemw w1 hw1)).2.1
  have hmlen : (joinWords ((List.range 24).map
      (fun i => wl.getD (mnemoIdx (fromDataBits sha data) i) []))).length ≤ 216 := by
    have := joinSep_length_le ' ' _ hlen8
    simpa [joinWords] using this
  have hcount : wallet_split_seed_count (joinWords ((List.range 24).map
      (fun i => wl.getD (mnemoIdx (fromDataBits sha data) i) []))) = 24 := by
    rw [wallet_split_seed_count, List.take_of_length_le
      (by rw [show MNEMONIC_BUF_LEN - 1 = 250 from rfl]; omega)]
    rw [show (joinWords ((List.range 24).map
      (fun i => wl.getD (mnemoIdx (fromDataBits sha data) i) []))) = joinSep ' '
      ((List.range 24).map (fun i => wl.getD (mnemoIdx (fromDataBits sha data) i) []))
      from rfl]
    rw [strtokTokens_joinSep isSepSC ' ' (by decide) _ hsepf]
    rw [List.filter_eq_self.mpr (fun a ha => by simpa [List.isEmpty_iff] using hne a ha)]
    simp
  have hwalk : checkWalk wl (spTokens (joinWords ((List.range 24).map
      (fun i => wl.getD (mnemoIdx (fromDataBits sha data) i) [])))) =
      some ((bytesToBits (fromDataBits sha data)).take 264) := by
    rw [show (joinWords ((List.range 24).map
      (fun i => wl.getD (mnemoIdx (fromDataBits sha data) i) []))) = joinSep ' '
      ((List.range 24).map (fun i => wl.getD (mnemoIdx (fromDataBits sha data) i) []))
      from rfl]
    rw [spTokens_joinSep _ hne hsp, hwordsmap,
      checkWalk_map_getD wl hnd (fun w1 hw1 => (hw w1 hw1).2.1) _ hkslt]
    congr 1
    have hnb : ((List.range 24).map (fun i => mnemoIdx (fromDataBits sha data) i)).map
        (fun k => natBits11 k) = (List.range 24).map
        (fun i => (List.range 11).map
          (fun j => testBitBE (fromDataBits sha data) (i * 11 + j))) := by
      rw [List.map_map]
      refine List.map_congr_left ?_
      intro i _
      exact natBits11_mnemoIdx _ i
    rw [hnb, flatten_range_blocks (fun p => testBitBE (fromDataBits sha data) p) 24]
    rw [show (24 : Nat) * 11 = 264 from rfl]
    exact range_map_testBit _ 264 (by rw [hBlen])
  have hbuf : bytesOfBits ((bytesToBits (fromDataBits sha data)).take 264) =
      data ++ [(sha data).headD 0] := by
    rw [List.take_of_length_le (by simp [length_bytesToBits, hBlen]),
      bytesOfBits_bytesToBits _ hBbytes, fromDataBits]
  have htk : (padTo 33 (data ++ [(sha data).headD 0])).take 32 = data := by
    rw [padTo, List.append_assoc, ← hlen32, List.take_left]
  have hgd : (padTo 33 (data ++ [(sha data).headD 0])).getD 32 0 = (sha data).headD 0 := by
    rw [padTo, List.append_assoc, List.getD_append_right]
    · rw [hlen32]
      simp
    · rw [hlen32]
  rw [wallet_mnemonic_check_eq]
  simp only [hcount, hwalk]
  rw [if_neg (show ¬¬((24 : Nat) = 12 ∨ (24 : Nat) = 18 ∨ True) from by simp)]
  rw [if_neg (show ¬((List.take 264 (bytesToBits (fromDataBits sha data))).length ≠ 24 * 11)
    from by rw [List.length_take, length_bytesToBits, hBlen]; norm_num)]
  rw [if_neg (show ¬((24 : Nat) = 12) from by norm_num)]
  rw [if_neg (show ¬((24 : Nat) = 18) from by norm_num)]
  have heb : (24 : Nat) * 4 / 3 = 32 := by norm_num
  rw [heb, hbuf, htk, hgd]
  simp

set_option maxRecDepth 4000 in
theorem charOf_inj : ∀ a < 26, ∀ b < 26, charOf a = charOf b → a = b := by decide

theorem word3_inj (a b : Nat) (ha : a < 2048) (hb : b < 2048) (h : word3 a = word3 b) :
    a = b := by
  simp only [word3, List.cons.injEq, and_true] at h
  obtain ⟨h1, h2, h3⟩ := h
  have e1 := charOf_inj _ (by omega) _ (by omega) h1
  have e2 := charOf_inj _ (by omega) _ (by omega) h2
  have e3 := charOf_inj _ (by omega) _ (by omega) h3
  omega

/-- The concrete word list has no duplicate words. -/
theorem wlC_nodup : wlC.Nodup := by
  rw [wlC]
  refine List.Nodup.map_on ?_ (List.nodup_range 2048)
  intro x hx y hy h
  exact word3_inj x y (List.mem_range.mp hx) (List.mem_range.mp hy) h

/-- The fifteen-word phrase `wallet_mnemonic_from_data` emits for 20 bytes
of zero entropy over the concrete collaborators. -/
def mnemonic15 : List Char := joinSep ' ' (List.replicate 15 ['a', 'a', 'a'])

/-- C4 (amended): the BIP39 round trip holds for entropy of 16, 24 or 32
bytes — `wallet_mnemonic_from_data` succeeds and `wallet_mnemonic_check`
accepts its output — for every SHA-256 collaborator producing bytes and
every 2048-entry duplicate-free word list of nonempty, ≤ 8-character,
separator-free words. For 20 and 28 bytes the emitted 15/21-word phrase is
rejected by the word-count check of `wallet_mnemonic_check` (see the
counterexample), so the claim's lengths {16, 20, 24, 28, 32} are wrong. -/
theorem mnemonic_roundtrip (sha : List Nat → List Nat) (wl : List (List Char)) (data : List Nat)
    (hsha : ∀ x, (sha x).headD 0 < 256)
    (hwlLen : wl.length = 2048) (hnd : wl.Nodup)
    (hw : ∀ w ∈ wl, w ≠ [] ∧ w.length ≤ 8 ∧ (∀ c ∈ w, ¬c = ' ' ∧ ¬c = ','))
    (hdata : ∀ b ∈ data, b < 256)
    (hlen : data.length = 16 ∨ data.length = 24 ∨ data.length = 32) :
    ∃ m, wallet_mnemonic_from_data sha wl data = some m ∧
      wallet_mnemonic_check sha wl m = true := by
  rcases hlen with h | h | h
  · have hm : wallet_mnemonic_from_data sha wl data =
        some (joinWords ((List.range 12).map
          (fun i => wl.getD (mnemoIdx (fromDataBits sha data) i) []))) := by
      rw [wallet_mnemonic_from_data,
        if_neg (show ¬(data.length % 4 ≠ 0 ∨ data.length < 16 ∨ 32 < data.length) from by
          rw [h]; norm_num), h]
    exact ⟨_, hm, roundtrip_case16 sha wl data hsha hwlLen hnd hw hdata h⟩
  · have hm : wallet_mnemonic_from_data sha wl data =
        some (joinWords ((List.range 18).map
          (fun i => wl.getD (mnemoIdx (fromDataBits sha data) i) []))) := by
      rw [wallet_mnemonic_from_data,
        if_neg (show ¬(data.length % 4 ≠ 0 ∨ data.length < 16 ∨ 32 < data.length) from by
          rw [h]; norm_num), h]
    exact ⟨_, hm, roundtrip_case24 sha wl data hsha hwlLen hnd hw hdata h⟩
  · have hm : wallet_mnemonic_from_data sha wl data =
        some (joinWords ((List.range 24).map
          (fun i => wl.getD (mnemoIdx (fromDataBits sha data) i) []))) := by
      rw [wallet_mnemonic_from_data,
        if_neg (show ¬(data.length % 4 ≠ 0 ∨ data.length < 16 ∨ 32 < data.length) from by
          rw [h]; norm_num), h]
    exact ⟨_, hm, roundtrip_case32 sha wl data hsha hwlLen hnd hw hdata h⟩

set_option maxRecDepth 4000 in
/-- C4 counterexample (closed): at 20 bytes of entropy — a length the claim
allows — the round trip fails: the encoder emits a fifteen-word phrase and
`wallet_mnemonic_check` rejects it (15 is not 12, 18 or 24). -/
theorem mnemonic_roundtrip_counterexample :
    wallet_mnemonic_from_data shaC wlC (List.replicate 20 0) = some mnemonic15 ∧
    wallet_mnemonic_check shaC wlC mnemonic15 = false := by
  decide

/-- Closed instance of the amended round trip at 16 zero bytes of entropy
over the concrete collaborators. -/
theorem mnemonic_roundtrip_witness :
    ∃ m, wallet_mnemonic_from_data shaC wlC (List.replicate 16 0) = some m ∧
      wallet_mnemonic_check shaC wlC m = true :=
  mnemonic_roundtrip shaC wlC (List.replicate 16 0)
    (fun _ => show (List.replicate 32 0).headD 0 < 256 by decide)
    (by simp [wlC]) wlC_nodup wlC_mem_props
    (fun b hb => by rw [List.eq_of_mem_replicate hb]; norm_num)
    (Or.inl (by simp))
